import Mathlib

/-!
# Verification of the polychrome terminal text-styling library

Shallow embedding of `src/color.rs` (the `polychrome` crate): the styled-text
builder and its `Display` renderer, the hex-color parsers, the gradient and
polychrome (rainbow) effects, the color-support probe and the progress bar.

Rust machine integers are modelled as `Nat`/`Int`; Rust `&str` as Lean
`String` (a list of Unicode scalar values) together with an explicit UTF-8
byte encoding where the source operates on bytes; `f32`/`f64` arithmetic as
exact dyadic rationals (`Fp`) rounded to nearest-even with 24-bit resp.
53-bit significands, which is exact for the normal range exercised by the
program; fallible paths return explicit outcome types, with a dedicated
constructor for Rust panics.
-/

namespace Polychrome

/-! ## String helpers

`Vec<String>::join("")` and `format!` concatenation from the source are
modelled with `concatAll` below. -/

def concatAll (l : List String) : String := l.foldl (fun a b => a ++ b) ""

theorem sdata_append (a b : String) : (a ++ b).data = a.data ++ b.data := rfl

theorem str_ext {a b : String} (h : a.data = b.data) : a = b := by
  cases a with
  | mk la =>
    cases b with
    | mk lb => exact congrArg String.mk h

theorem str_append_assoc (a b c : String) : a ++ b ++ c = a ++ (b ++ c) := by
  apply str_ext; simp [sdata_append]

theorem str_append_empty (a : String) : a ++ "" = a := by
  apply str_ext; simp [sdata_append]

theorem str_empty_append (a : String) : "" ++ a = a := by
  apply str_ext; simp [sdata_append]

theorem concatAll_nil : concatAll [] = "" := rfl

theorem foldl_append_init (l : List String) :
    ∀ init : String, l.foldl (fun a b => a ++ b) init = init ++ l.foldl (fun a b => a ++ b) "" := by
  induction l with
  | nil => intro init; simp [List.foldl, str_append_empty]
  | cons x xs ih =>
    intro init
    simp only [List.foldl]
    rw [ih (init ++ x), ih ("" ++ x), str_empty_append, str_append_assoc]

theorem concatAll_cons (x : String) (l : List String) :
    concatAll (x :: l) = x ++ concatAll l := by
  unfold concatAll
  simp only [List.foldl]
  rw [foldl_append_init, str_empty_append]

theorem concatAll_append (l₁ l₂ : List String) :
    concatAll (l₁ ++ l₂) = concatAll l₁ ++ concatAll l₂ := by
  induction l₁ with
  | nil => simp [concatAll_nil, str_empty_append]
  | cons x xs ih =>
    simp only [List.cons_append, concatAll_cons, ih, str_append_assoc]

/-! ## Data model (`TextStyle`, `UnderlineStyle`, `StyledText`)

Mirrors the Rust enums and the `StyledText` struct.  The borrowed `&'a str`
text is modelled as an owned `String` (no behaviour depends on sharing). -/

inductive TextStyle where
  | bold
  | dim
  | italic
  | blink
  | reverse
  | hidden
  | reset
  deriving DecidableEq

inductive UnderlineStyle where
  | normal
  | strikethrough
  | double
  | curly
  | dotted
  | dashed
  | none
  deriving DecidableEq

structure StyledText where
  text : String
  foreground : Option (Nat × Nat × Nat)
  background : Option (Nat × Nat × Nat)
  underline : UnderlineStyle
  styles : List TextStyle
  deriving DecidableEq

def StyledText.new (text : String) : StyledText :=
  ⟨text, Option.none, Option.none, UnderlineStyle.none, []⟩

def StyledText.color (st : StyledText) (r g b : Nat) : StyledText :=
  { st with foreground := some (r, g, b) }

def StyledText.bg_color (st : StyledText) (r g b : Nat) : StyledText :=
  { st with background := some (r, g, b) }

/-- `StyledText::underline` from the source (named `setUnderline` here because
`underline` is already the field projection). -/
def StyledText.setUnderline (st : StyledText) (u : UnderlineStyle) : StyledText :=
  { st with underline := u }

def StyledText.style (st : StyledText) (s : TextStyle) : StyledText :=
  if st.styles.contains s then st else { st with styles := st.styles ++ [s] }

def StyledText.bold (st : StyledText) : StyledText := st.style TextStyle.bold

def StyledText.italic (st : StyledText) : StyledText := st.style TextStyle.italic

def StyledText.dim (st : StyledText) : StyledText := st.style TextStyle.dim

def StyledText.blink (st : StyledText) : StyledText := st.style TextStyle.blink

def StyledText.reverse (st : StyledText) : StyledText := st.style TextStyle.reverse

def StyledText.hidden (st : StyledText) : StyledText := st.style TextStyle.hidden

/-! ## Renderer (`impl Display for StyledText`) -/

def fgCode (r g b : Nat) : String :=
  "\x1b[38;2;" ++ Nat.repr r ++ ";" ++ Nat.repr g ++ ";" ++ Nat.repr b ++ "m"

def bgCode (r g b : Nat) : String :=
  "\x1b[48;2;" ++ Nat.repr r ++ ";" ++ Nat.repr g ++ ";" ++ Nat.repr b ++ "m"

def styleCode : TextStyle → String
  | TextStyle.bold => "\x1b[1m"
  | TextStyle.dim => "\x1b[2m"
  | TextStyle.italic => "\x1b[3m"
  | TextStyle.blink => "\x1b[5m"
  | TextStyle.reverse => "\x1b[7m"
  | TextStyle.hidden => "\x1b[8m"
  | TextStyle.reset => "\x1b[0m"

def underlineCode : UnderlineStyle → String
  | UnderlineStyle.normal => "\x1b[4m"
  | UnderlineStyle.strikethrough => "\x1b[9m"
  | UnderlineStyle.double => "\x1b[21m"
  | UnderlineStyle.curly => "\x1b[4:3m"
  | UnderlineStyle.dotted => "\x1b[4:4m"
  | UnderlineStyle.dashed => "\x1b[4:5m"
  | UnderlineStyle.none => ""

/-- `fmt`: collect the escape codes into a vector in order (foreground,
background, text styles, underline when its code is nonempty), then write
`codes.join("") ++ text ++ "\x1b[0m"`. -/
def StyledText.render (st : StyledText) : String :=
  let codes : List String :=
    (match st.foreground with
      | some (r, g, b) => [fgCode r g b]
      | Option.none => [])
    ++ (match st.background with
      | some (r, g, b) => [bgCode r g b]
      | Option.none => [])
    ++ st.styles.map styleCode
    ++ (if underlineCode st.underline = "" then [] else [underlineCode st.underline])
  concatAll codes ++ st.text ++ "\x1b[0m"

/-! ### C1: the rendered string is exactly prefix ++ text ++ reset,
with the prefix the in-order concatenation described by the spec. -/

/-- Foreground part of the escape-prefix, per the specification wording
("the foreground code ESC[38;2;R;G;Bm if foreground is set"). -/
def specFgPart (st : StyledText) : String :=
  match st.foreground with
  | some (r, g, b) => fgCode r g b
  | Option.none => ""

/-- Background part of the escape-prefix, per the specification wording. -/
def specBgPart (st : StyledText) : String :=
  match st.background with
  | some (r, g, b) => bgCode r g b
  | Option.none => ""

/-- Attribute part: each attribute's code in attribute-insertion order. -/
def specAttrPart (st : StyledText) : String :=
  concatAll (st.styles.map styleCode)

/-- Underline part: the underline code from the fixed mapping
(`UnderlineStyle.none` emits nothing). -/
def specUnderPart (st : StyledText) : String :=
  underlineCode st.underline

theorem render_eq_parts (st : StyledText) :
    st.render =
      specFgPart st ++ specBgPart st ++ specAttrPart st ++ specUnderPart st
        ++ st.text ++ "\x1b[0m" := by
  unfold StyledText.render specFgPart specBgPart specAttrPart specUnderPart
  simp only [concatAll_append]
  cases hf : st.foreground with
  | none =>
    cases hb : st.background with
    | none =>
      by_cases hu : underlineCode st.underline = ""
      · simp [hu, concatAll_nil, concatAll_cons, str_empty_append, str_append_empty,
          str_append_assoc]
      · simp [hu, concatAll_nil, concatAll_cons, str_empty_append, str_append_empty,
          str_append_assoc]
    | some rgb =>
      obtain ⟨r, g, b⟩ := rgb
      by_cases hu : underlineCode st.underline = ""
      · simp [hu, concatAll_nil, concatAll_cons, str_empty_append, str_append_empty,
          str_append_assoc]
      · simp [hu, concatAll_nil, concatAll_cons, str_empty_append, str_append_empty,
          str_append_assoc]
  | some rgbf =>
    obtain ⟨rf, gf, bf⟩ := rgbf
    cases hb : st.background with
    | none =>
      by_cases hu : underlineCode st.underline = ""
      · simp [hu, concatAll_nil, concatAll_cons, str_empty_append, str_append_empty,
          str_append_assoc]
      · simp [hu, concatAll_nil, concatAll_cons, str_empty_append, str_append_empty,
          str_append_assoc]
    | some rgb =>
      obtain ⟨r, g, b⟩ := rgb
      by_cases hu : underlineCode st.underline = ""
      · simp [hu, concatAll_nil, concatAll_cons, str_empty_append, str_append_empty,
          str_append_assoc]
      · simp [hu, concatAll_nil, concatAll_cons, str_empty_append, str_append_empty,
          str_append_assoc]

/-- C1: rendering a `StyledText` produces exactly
`<escape-prefix><text><reset-code>`: the escape-prefix is the concatenation,
in this order, of the foreground code (if set), the background code (if
set), each attribute's code in insertion order under the fixed mapping, and
the underline code under the fixed mapping (`None` emitting nothing); the
reset code `ESC[0m` is always appended, even for a fresh unstyled text. -/
theorem c1_render_shape :
    (∀ st : StyledText,
        st.render =
          specFgPart st ++ specBgPart st ++ specAttrPart st ++ specUnderPart st
            ++ st.text ++ "\x1b[0m")
    ∧ styleCode TextStyle.bold = "\x1b[1m"
    ∧ styleCode TextStyle.dim = "\x1b[2m"
    ∧ styleCode TextStyle.italic = "\x1b[3m"
    ∧ styleCode TextStyle.blink = "\x1b[5m"
    ∧ styleCode TextStyle.reverse = "\x1b[7m"
    ∧ styleCode TextStyle.hidden = "\x1b[8m"
    ∧ styleCode TextStyle.reset = "\x1b[0m"
    ∧ underlineCode UnderlineStyle.normal = "\x1b[4m"
    ∧ underlineCode UnderlineStyle.strikethrough = "\x1b[9m"
    ∧ underlineCode UnderlineStyle.double = "\x1b[21m"
    ∧ underlineCode UnderlineStyle.curly = "\x1b[4:3m"
    ∧ underlineCode UnderlineStyle.dotted = "\x1b[4:4m"
    ∧ underlineCode UnderlineStyle.dashed = "\x1b[4:5m"
    ∧ underlineCode UnderlineStyle.none = ""
    ∧ (∀ t : String, (StyledText.new t).render = t ++ "\x1b[0m") := by
  refine ⟨render_eq_parts, rfl, rfl, rfl, rfl, rfl, rfl, rfl, rfl, rfl, rfl, rfl,
    rfl, rfl, rfl, ?_⟩
  intro t
  rw [render_eq_parts]
  simp [StyledText.new, specFgPart, specBgPart, specAttrPart, specUnderPart,
    underlineCode, concatAll_nil, str_empty_append]

/-! ### C7: re-adding a present attribute is a no-op -/

theorem contains_eq_mem (l : List TextStyle) (a : TextStyle) :
    l.contains a = true ↔ a ∈ l := by
  induction l with
  | nil => simp [List.contains]
  | cons x xs ih =>
    simp only [List.contains, List.elem_cons, List.mem_cons]
    by_cases h : a = x
    · subst h; simp
    · have hbeq : (a == x) = false := by
        simp [beq_iff_eq, h]
      simp only [List.contains] at ih
      simp [hbeq, ih, h]

/-- C7: adding an attribute that is already present (via `style` or any of
the convenience wrappers) leaves the configuration — its attribute list,
order, and rendering — completely unchanged; adding a fresh attribute
appends it at the end, so the displayed attribute order is first-add
order. -/
theorem c7_style_idempotent :
    (∀ (st : StyledText) (a : TextStyle), a ∈ st.styles → st.style a = st)
    ∧ (∀ (st : StyledText) (a : TextStyle), a ∈ st.styles →
        (st.style a).render = st.render)
    ∧ (∀ (st : StyledText) (a : TextStyle), a ∉ st.styles →
        (st.style a).styles = st.styles ++ [a])
    ∧ (∀ st : StyledText, TextStyle.bold ∈ st.styles → st.bold = st)
    ∧ (∀ st : StyledText, TextStyle.italic ∈ st.styles → st.italic = st)
    ∧ (∀ st : StyledText, TextStyle.dim ∈ st.styles → st.dim = st)
    ∧ (∀ st : StyledText, TextStyle.blink ∈ st.styles → st.blink = st)
    ∧ (∀ st : StyledText, TextStyle.reverse ∈ st.styles → st.reverse = st)
    ∧ (∀ st : StyledText, TextStyle.hidden ∈ st.styles → st.hidden = st) := by
  have hmain : ∀ (st : StyledText) (a : TextStyle), a ∈ st.styles → st.style a = st := by
    intro st a ha
    unfold StyledText.style
    rw [if_pos ((contains_eq_mem st.styles a).mpr ha)]
  refine ⟨hmain, ?_, ?_, ?_, ?_, ?_, ?_, ?_, ?_⟩
  · intro st a ha; rw [hmain st a ha]
  · intro st a ha
    have hc : ¬(st.styles.contains a = true) := fun h =>
      ha ((contains_eq_mem st.styles a).mp h)
    unfold StyledText.style
    rw [if_neg hc]
  · intro st ha; exact hmain st _ ha
  · intro st ha; exact hmain st _ ha
  · intro st ha; exact hmain st _ ha
  · intro st ha; exact hmain st _ ha
  · intro st ha; exact hmain st _ ha
  · intro st ha; exact hmain st _ ha

/-- Witness for C7 at a concrete configuration: a text made bold twice
renders as if bold once. -/
theorem c7_witness :
    ((StyledText.new "hi").bold.bold = (StyledText.new "hi").bold)
    ∧ ((StyledText.new "hi").bold.style TextStyle.bold).render
        = (StyledText.new "hi").bold.render :=
  ⟨c7_style_idempotent.2.2.2.1 (StyledText.new "hi").bold (by decide),
   c7_style_idempotent.2.1 (StyledText.new "hi").bold TextStyle.bold (by decide)⟩

/-! ### C8: `utils::supports_color` as a function of the environment -/

/-- `utils::supports_color`, with the three environment variables passed
explicitly (`none` models `std::env::var` returning an error / unset).
Rust's `str::is_empty` (byte length zero) is modelled as `data.isEmpty`. -/
def supports_color (no_color force_color term : Option String) : Bool :=
  no_color.isNone &&
    (force_color.isSome ||
      (match term with
        | some t => !t.data.isEmpty && !(t == "dumb")
        | Option.none => false))

/-- The specification's cascade: `NO_COLOR` present forces false; else
`FORCE_COLOR` present forces true; else `TERM` unset, empty or `"dumb"`
gives false and anything else true. -/
def supportsColorSpec (no_color force_color term : Option String) : Bool :=
  if no_color.isSome then false
  else if force_color.isSome then true
  else
    match term with
    | Option.none => false
    | some t => if t = "" ∨ t = "dumb" then false else true

/-- C8: `supports_color` equals the specification cascade: false whenever
`NO_COLOR` is present (any value) regardless of the other variables;
otherwise true if `FORCE_COLOR` is present; otherwise determined by `TERM`
(unset, empty, or exactly `"dumb"` gives false, anything else true). -/
theorem c8_supports_color :
    ∀ no_color force_color term : Option String,
      supports_color no_color force_color term
        = supportsColorSpec no_color force_color term := by
  intro no_color force_color term
  cases no_color with
  | some v => simp [supports_color, supportsColorSpec]
  | none =>
    cases force_color with
    | some v => simp [supports_color, supportsColorSpec]
    | none =>
      cases term with
      | none => simp [supports_color, supportsColorSpec]
      | some t =>
        simp only [supports_color, supportsColorSpec, Option.isNone_none,
          Option.isSome_none, Bool.true_and, Bool.false_or, if_false]
        by_cases he : t = ""
        · subst he; simp
        · by_cases hd : t = "dumb"
          · subst hd; simp
          · have hbeq : (t == "dumb") = false := by simp [hd]
            have hne : t.data.isEmpty = false := by
              rw [List.isEmpty_eq_false]
              intro hdata
              exact he (str_ext (by simpa using hdata))
            simp [he, hd, hbeq, hne]

/-! ## Hex-color parsing (`hex_color` / `bg_hex_color`)

The source trims leading `#` characters, checks the remaining *byte* length
is 6, then byte-slices `&hex[0..2]`, `&hex[2..4]`, `&hex[4..6]` and parses
each slice with `u8::from_str_radix(_, 16)`.  Byte slicing panics when the
slice boundary is not a UTF-8 character boundary, so the embedding works on
the UTF-8 byte encoding of the string and models the panic explicitly. -/

/-- The UTF-8 bytes of one Unicode scalar value. -/
def utf8Bytes (c : Char) : List Nat :=
  let n := c.toNat
  if n < 128 then [n]
  else if n < 2048 then [192 + n / 64, 128 + n % 64]
  else if n < 65536 then [224 + n / 4096, 128 + n / 64 % 64, 128 + n % 64]
  else [240 + n / 262144, 128 + n / 4096 % 64, 128 + n / 64 % 64, 128 + n % 64]

def utf8Encode (s : List Char) : List Nat := (s.map utf8Bytes).flatten

/-- A byte in the range 128–191 is a UTF-8 continuation byte; a byte index
pointing at one is not a character boundary (`str::is_char_boundary`). -/
def isContinuation (b : Nat) : Bool := decide (128 ≤ b ∧ b < 192)

/-- The byte at index `i` (the index is in bounds in every use). -/
def byteAt (bs : List Nat) (i : Nat) : Nat := bs.getD i 0

/-- `char::to_digit(16)` on a byte: `0-9`, `a-f`, `A-F`. -/
def hexDigitVal (b : Nat) : Option Nat :=
  if 48 ≤ b ∧ b ≤ 57 then some (b - 48)
  else if 97 ≤ b ∧ b ≤ 102 then some (b - 87)
  else if 65 ≤ b ∧ b ≤ 70 then some (b - 55)
  else none

/-- Digit-accumulation loop of `u8::from_str_radix(_, 16)` with `u8`
overflow checks (`checked_mul`/`checked_add`). -/
def parseHexDigits (bs : List Nat) : Option Nat :=
  bs.foldl
    (fun acc b =>
      match acc, hexDigitVal b with
      | some a, some d => if a ≤ 15 ∧ a * 16 + d ≤ 255 then some (a * 16 + d) else none
      | _, _ => none)
    (some 0)

/-- `u8::from_str_radix(s, 16)` on the bytes of `s`: rejects the empty
string and a lone sign, strips an optional leading `+` (45, a `-`, is left
to fail as a non-digit for unsigned targets), then parses the digits. -/
def fromStrRadix16u8 (bs : List Nat) : Option Nat :=
  match bs with
  | [] => none
  | [43] => none
  | 43 :: rest => parseHexDigits rest
  | _ => parseHexDigits bs

inductive HexParse where
  | ok (r g b : Nat)
  | invalid
  | panicked
  deriving DecidableEq

/-- The body of `hex_color`/`bg_hex_color` after `#`-trimming, on the UTF-8
bytes: length check, then the three 2-byte slices in source order, where a
slice whose start or end byte index falls inside a multi-byte character
panics before the corresponding parse is attempted. -/
def hexParseBytes (bs : List Nat) : HexParse :=
  if bs.length = 6 then
    if isContinuation (byteAt bs 2) then HexParse.panicked
    else
      match fromStrRadix16u8 (bs.take 2) with
      | Option.none => HexParse.invalid
      | some r =>
        if isContinuation (byteAt bs 4) then HexParse.panicked
        else
          match fromStrRadix16u8 ((bs.drop 2).take 2) with
          | Option.none => HexParse.invalid
          | some g =>
            match fromStrRadix16u8 (bs.drop 4) with
            | Option.none => HexParse.invalid
            | some b => HexParse.ok r g b
  else HexParse.invalid

/-- `hex.trim_start_matches('#')`. -/
def stripHash (s : String) : List Char := s.data.dropWhile (fun c => c = '#')

inductive HexOutcome where
  | ok (st : StyledText)
  | invalidColorFormat
  | panicked
  deriving DecidableEq

def StyledText.hex_color (st : StyledText) (hex : String) : HexOutcome :=
  match hexParseBytes (utf8Encode (stripHash hex)) with
  | HexParse.ok r g b => HexOutcome.ok { st with foreground := some (r, g, b) }
  | HexParse.invalid => HexOutcome.invalidColorFormat
  | HexParse.panicked => HexOutcome.panicked

def StyledText.bg_hex_color (st : StyledText) (hex : String) : HexOutcome :=
  match hexParseBytes (utf8Encode (stripHash hex)) with
  | HexParse.ok r g b => HexOutcome.ok { st with background := some (r, g, b) }
  | HexParse.invalid => HexOutcome.invalidColorFormat
  | HexParse.panicked => HexOutcome.panicked

/-! ### C2: totality fails — the byte slices can panic

`"€abc"` is 6 bytes (`€` is `E2 82 AC`), so it passes the length check, but
byte index 2 falls inside `€`, and `&hex[0..2]` panics in the Rust source
("byte index 2 is not a char boundary").  The claim (and the spec) promise
an `InvalidColorFormat` error instead of a crash for every input. -/

/-- C2 (code bug): evaluating `hex_color` and `bg_hex_color` at the 6-byte
non-ASCII input `"€abc"` reaches the byte-slice panic instead of returning
an `InvalidColorFormat` error. -/
theorem c2_hex_color_panics :
    (StyledText.new "x").hex_color "€abc" = HexOutcome.panicked
    ∧ (StyledText.new "x").bg_hex_color "€abc" = HexOutcome.panicked := by
  constructor <;> rfl

/-! ### C5: the failure condition, corrected -/

/-- A hexadecimal digit character, per the claim's reading of "valid
hexadecimal" (the 2-digit group consists of hex digits). -/
def isHexDigitChar (c : Char) : Bool :=
  (decide ('0' ≤ c) && decide (c ≤ '9'))
    || (decide ('a' ≤ c) && decide (c ≤ 'f'))
    || (decide ('A' ≤ c) && decide (c ≤ 'F'))

/-- The claim's success condition as stated: after stripping, exactly six
characters, all hexadecimal digits (equivalently: every 2-digit group is
valid hexadecimal). -/
def claimedHexOk (s : String) : Prop :=
  (stripHash s).length = 6 ∧ ∀ c ∈ stripHash s, isHexDigitChar c = true

instance (s : String) : Decidable (claimedHexOk s) := by
  unfold claimedHexOk
  infer_instance

/-- C5 counterexample: `"+000ff"` contains `+`, which is not a hexadecimal
digit, so per the claim `hex_color` must fail with `InvalidColorFormat`;
but `u8::from_str_radix` accepts an optional leading `+`, and the source
returns a successfully updated configuration. -/
theorem c5_counterexample :
    ¬(((StyledText.new "t").hex_color "+000ff" = HexOutcome.invalidColorFormat)
        ↔ ¬claimedHexOk "+000ff") := by
  decide

/-- C5 (amended): excluding the inputs that hit the byte-slice panic (C2),
`hex_color` and `bg_hex_color` fail with `InvalidColorFormat` exactly when
the stripped string's byte length is not 6 or one of the three 2-byte
groups is rejected by `u8::from_str_radix(_, 16)` (which also accepts a
leading `+` before a single digit); on success they behave exactly like
`color`/`bg_color` on the decoded values.  In particular `"#FF0000"` yields
the same configuration as `color 255 0 0`, and `"GG0000"` and `"#FF"` fail. -/
theorem c5_hex_failure_condition :
    (∀ (st : StyledText) (hex : String),
      st.hex_color hex ≠ HexOutcome.panicked →
        ((st.hex_color hex = HexOutcome.invalidColorFormat ↔
            (utf8Encode (stripHash hex)).length ≠ 6
            ∨ fromStrRadix16u8 ((utf8Encode (stripHash hex)).take 2) = Option.none
            ∨ fromStrRadix16u8 (((utf8Encode (stripHash hex)).drop 2).take 2) = Option.none
            ∨ fromStrRadix16u8 ((utf8Encode (stripHash hex)).drop 4) = Option.none)
          ∧ ∀ r g b : Nat,
              fromStrRadix16u8 ((utf8Encode (stripHash hex)).take 2) = some r →
              fromStrRadix16u8 (((utf8Encode (stripHash hex)).drop 2).take 2) = some g →
              fromStrRadix16u8 ((utf8Encode (stripHash hex)).drop 4) = some b →
              (utf8Encode (stripHash hex)).length = 6 →
              st.hex_color hex = HexOutcome.ok (st.color r g b)))
    ∧ (∀ (st : StyledText) (hex : String),
      st.bg_hex_color hex ≠ HexOutcome.panicked →
        ((st.bg_hex_color hex = HexOutcome.invalidColorFormat ↔
            (utf8Encode (stripHash hex)).length ≠ 6
            ∨ fromStrRadix16u8 ((utf8Encode (stripHash hex)).take 2) = Option.none
            ∨ fromStrRadix16u8 (((utf8Encode (stripHash hex)).drop 2).take 2) = Option.none
            ∨ fromStrRadix16u8 ((utf8Encode (stripHash hex)).drop 4) = Option.none)
          ∧ ∀ r g b : Nat,
              fromStrRadix16u8 ((utf8Encode (stripHash hex)).take 2) = some r →
              fromStrRadix16u8 (((utf8Encode (stripHash hex)).drop 2).take 2) = some g →
              fromStrRadix16u8 ((utf8Encode (stripHash hex)).drop 4) = some b →
              (utf8Encode (stripHash hex)).length = 6 →
              st.bg_hex_color hex = HexOutcome.ok (st.bg_color r g b)))
    ∧ (∀ st : StyledText, st.hex_color "#FF0000" = HexOutcome.ok (st.color 255 0 0))
    ∧ (∀ st : StyledText, st.hex_color "GG0000" = HexOutcome.invalidColorFormat)
    ∧ (∀ st : StyledText, st.hex_color "#FF" = HexOutcome.invalidColorFormat) := by
  have key : ∀ bs : List Nat,
      hexParseBytes bs ≠ HexParse.panicked →
        ((hexParseBytes bs = HexParse.invalid ↔
            bs.length ≠ 6
            ∨ fromStrRadix16u8 (bs.take 2) = Option.none
            ∨ fromStrRadix16u8 ((bs.drop 2).take 2) = Option.none
            ∨ fromStrRadix16u8 (bs.drop 4) = Option.none)
          ∧ ∀ r g b : Nat,
              fromStrRadix16u8 (bs.take 2) = some r →
              fromStrRadix16u8 ((bs.drop 2).take 2) = some g →
              fromStrRadix16u8 (bs.drop 4) = some b →
              bs.length = 6 →
              hexParseBytes bs = HexParse.ok r g b) := by
    intro bs hnp
    by_cases h6 : bs.length = 6
    · cases hc2 : isContinuation (byteAt bs 2) with
      | true =>
        exfalso
        apply hnp
        simp [hexParseBytes, h6, hc2]
      | false =>
        cases hr : fromStrRadix16u8 (bs.take 2) with
        | none =>
          constructor
          · simp [hexParseBytes, h6, hc2, hr]
          · intro r g b hr2 _ _ _
            exact Option.noConfusion hr2
        | some r =>
          cases hc4 : isContinuation (byteAt bs 4) with
          | true =>
            exfalso
            apply hnp
            simp [hexParseBytes, h6, hc2, hr, hc4]
          | false =>
            cases hg : fromStrRadix16u8 ((bs.drop 2).take 2) with
            | none =>
              constructor
              · simp [hexParseBytes, h6, hc2, hr, hc4, hg]
              · intro r2 g b _ hg2 _ _
                exact Option.noConfusion hg2
            | some g =>
              cases hb : fromStrRadix16u8 (bs.drop 4) with
              | none =>
                constructor
                · simp [hexParseBytes, h6, hc2, hr, hc4, hg, hb]
                · intro r2 g2 b _ _ hb2 _
                  exact Option.noConfusion hb2
              | some b =>
                constructor
                · simp [hexParseBytes, h6, hc2, hr, hc4, hg, hb]
                · intro r2 g2 b2 hr2 hg2 hb2 _
                  injection hr2 with e1
                  injection hg2 with e2
                  injection hb2 with e3
                  subst e1
                  subst e2
                  subst e3
                  simp [hexParseBytes, h6, hc2, hr, hc4, hg, hb]
    · constructor
      · simp [hexParseBytes, h6]
      · intro r g b _ _ _ h6eq
        exact absurd h6eq h6
  refine ⟨?_, ?_, ?_, ?_, ?_⟩
  · intro st hex hnp
    have hnp2 : hexParseBytes (utf8Encode (stripHash hex)) ≠ HexParse.panicked := by
      intro h
      apply hnp
      unfold StyledText.hex_color
      rw [h]
    obtain ⟨hiff, hok⟩ := key (utf8Encode (stripHash hex)) hnp2
    constructor
    · unfold StyledText.hex_color
      cases hres : hexParseBytes (utf8Encode (stripHash hex)) with
      | ok r g b => simpa [hres] using hiff
      | invalid => simpa [hres] using hiff
      | panicked => exact absurd hres hnp2
    · intro r g b hr hg hb h6
      have := hok r g b hr hg hb h6
      unfold StyledText.hex_color
      rw [this]
      rfl
  · intro st hex hnp
    have hnp2 : hexParseBytes (utf8Encode (stripHash hex)) ≠ HexParse.panicked := by
      intro h
      apply hnp
      unfold StyledText.bg_hex_color
      rw [h]
    obtain ⟨hiff, hok⟩ := key (utf8Encode (stripHash hex)) hnp2
    constructor
    · unfold StyledText.bg_hex_color
      cases hres : hexParseBytes (utf8Encode (stripHash hex)) with
      | ok r g b => simpa [hres] using hiff
      | invalid => simpa [hres] using hiff
      | panicked => exact absurd hres hnp2
    · intro r g b hr hg hb h6
      have := hok r g b hr hg hb h6
      unfold StyledText.bg_hex_color
      rw [this]
      rfl
  · intro st
    unfold StyledText.hex_color
    have : hexParseBytes (utf8Encode (stripHash "#FF0000")) = HexParse.ok 255 0 0 := by rfl
    rw [this]
    rfl
  · intro st
    unfold StyledText.hex_color
    have : hexParseBytes (utf8Encode (stripHash "GG0000")) = HexParse.invalid := by rfl
    rw [this]
  · intro st
    unfold StyledText.hex_color
    have : hexParseBytes (utf8Encode (stripHash "#FF")) = HexParse.invalid := by rfl
    rw [this]

/-- Witness for C5 at a concrete input: `"#0a12Ff"` decodes to `(10, 18,
255)` and updates the configuration exactly like `color 10 18 255`. -/
theorem c5_witness :
    (StyledText.new "w").hex_color "#0a12Ff"
      = HexOutcome.ok ((StyledText.new "w").color 10 18 255) :=
  (c5_hex_failure_condition.1 (StyledText.new "w") "#0a12Ff" (by decide)).2
    10 18 255 (by decide) (by decide) (by decide) (by decide)

/-! ## Binary floating point as exact dyadic rationals

`f32`/`f64` values in the program's range are modelled as `num * 2 ^ exp`
with unbounded `Int` fields, and every arithmetic operation rounds its
exact rational result to a `prec`-bit significand, round-to-nearest,
ties-to-even (`prec = 24` for `f32`, `prec = 53` for `f64`).  This agrees
with IEEE-754 wherever no overflow and no subnormals occur, which covers
every value these functions compute (lengths fit in a `usize`, colors in a
`u8`, ratios lie in `[0, 1]`). -/

/-- Fuelled floor-log2 (structural recursion, so the kernel can evaluate it). -/
def log2F : Nat → Nat → Nat
  | 0, _ => 0
  | fuel + 1, n => if n < 2 then 0 else log2F fuel (n / 2) + 1

def nlog2 (n : Nat) : Nat := log2F n n

theorem log2F_spec : ∀ (fuel n : Nat), 1 ≤ n → n ≤ fuel →
    2 ^ log2F fuel n ≤ n ∧ n < 2 ^ (log2F fuel n + 1) := by
  intro fuel
  induction fuel with
  | zero => intro n h1 h0; omega
  | succ f ih =>
    intro n h1 hf
    by_cases h2 : n < 2
    · simp only [log2F, h2, if_true]
      omega
    · simp only [log2F, h2, if_false]
      have hn2 : 2 ≤ n := by omega
      have h1d : 1 ≤ n / 2 := Nat.one_le_div_iff (by omega) |>.mpr hn2
      have hfd : n / 2 ≤ f := by omega
      obtain ⟨hlo, hhi⟩ := ih (n / 2) h1d hfd
      constructor
      · calc 2 ^ (log2F f (n / 2) + 1) = 2 * 2 ^ log2F f (n / 2) := by ring
        _ ≤ 2 * (n / 2) := by omega
        _ ≤ n := by omega
      · calc n < 2 * (n / 2) + 2 := by omega
        _ ≤ 2 * 2 ^ (log2F f (n / 2) + 1) := by omega
        _ = 2 ^ (log2F f (n / 2) + 1 + 1) := by ring

theorem nlog2_spec (n : Nat) (h1 : 1 ≤ n) :
    2 ^ nlog2 n ≤ n ∧ n < 2 ^ (nlog2 n + 1) :=
  log2F_spec n n h1 (Nat.le_refl n)

/-- Round-to-nearest-even of `p / q` to an integer (`q > 0`). -/
def rnePos (p q : Nat) : Nat :=
  if 2 * (p % q) < q then p / q
  else if q < 2 * (p % q) then p / q + 1
  else if p / q % 2 = 0 then p / q else p / q + 1

theorem rnePos_bounds (p q : Nat) (hq : 1 ≤ q) :
    (p : ℚ) / q - 1 / 2 ≤ rnePos p q ∧ (rnePos p q : ℚ) ≤ (p : ℚ) / q + 1 / 2 := by
  have hq0 : (0 : ℚ) < (q : ℚ) := by exact_mod_cast hq
  have hpq : (p : ℚ) / q = (p / q : Nat) + ((p % q : Nat) : ℚ) / q := by
    have hsplit : (p : ℚ) = (q : ℚ) * ((p / q : Nat) : ℚ) + ((p % q : Nat) : ℚ) := by
      exact_mod_cast (Nat.div_add_mod p q).symm
    field_simp
    linarith [hsplit]
  have hr_lt : ((p % q : Nat) : ℚ) / q < 1 := by
    rw [div_lt_one hq0]
    exact_mod_cast Nat.mod_lt p (by omega)
  have hr_nonneg : (0 : ℚ) ≤ ((p % q : Nat) : ℚ) / q := by positivity
  unfold rnePos
  by_cases h1 : 2 * (p % q) < q
  · simp only [h1, if_true]
    have : ((p % q : Nat) : ℚ) / q < 1 / 2 := by
      rw [div_lt_div_iff hq0 (by norm_num)]
      push_cast
      exact_mod_cast by linarith [show ((2 * (p % q) : Nat) : ℚ) < (q : ℚ) from by exact_mod_cast h1]
    constructor
    · rw [hpq]; linarith
    · rw [hpq]; linarith
  · by_cases h2 : q < 2 * (p % q)
    · simp only [h1, h2, if_false, if_true]
      have : (1 : ℚ) / 2 < ((p % q : Nat) : ℚ) / q := by
        rw [div_lt_div_iff (by norm_num) hq0]
        exact_mod_cast by linarith [show (q : ℚ) < ((2 * (p % q) : Nat) : ℚ) from by exact_mod_cast h2]
      push_cast
      constructor
      · rw [hpq]; push_cast; linarith
      · rw [hpq]; push_cast; linarith
    · have heq : ((p % q : Nat) : ℚ) / q = 1 / 2 := by
        have hnn : (2 * (p % q) : Nat) = q := by omega
        have hcast : (2 : ℚ) * ((p % q : Nat) : ℚ) = (q : ℚ) := by exact_mod_cast hnn
        field_simp
        linarith
      simp only [h1, h2, if_false]
      by_cases h3 : p / q % 2 = 0
      · simp only [h3, if_true]
        constructor
        · rw [hpq, heq]; linarith
        · rw [hpq, heq]; linarith
      · simp only [h3, if_false]
        push_cast
        constructor
        · rw [hpq, heq]; push_cast; linarith
        · rw [hpq, heq]; push_cast; linarith

/-- `2 ^ k ≤ p / q`, with `k : Int`, decided by cross-multiplication. -/
def pow2leFrac (k : Int) (p q : Nat) : Bool :=
  if 0 ≤ k then decide (q * 2 ^ k.toNat ≤ p) else decide (q ≤ p * 2 ^ (-k).toNat)

/-- `⌊log2 (p / q)⌋` for `p, q ≥ 1`. -/
def flog2Frac (p q : Nat) : Int :=
  if pow2leFrac ((nlog2 p : Int) - (nlog2 q : Int)) p q then (nlog2 p : Int) - (nlog2 q : Int)
  else (nlog2 p : Int) - (nlog2 q : Int) - 1

/-- The exponent of the `prec`-bit float nearest `p / q`: the significand
is an integer in `[2 ^ (prec - 1), 2 ^ prec]`. -/
def roundExp (prec p q : Nat) : Int := flog2Frac p q - ((prec - 1 : Nat) : Int)

/-- Round `p / q` (`p, q ≥ 1`) to a `prec`-bit significand: the result is
`(m, e)` with value `m * 2 ^ e`. -/
def roundPos (prec p q : Nat) : Nat × Int :=
  if 0 ≤ roundExp prec p q then
    (rnePos p (q * 2 ^ (roundExp prec p q).toNat), roundExp prec p q)
  else (rnePos (p * 2 ^ (-roundExp prec p q).toNat) q, roundExp prec p q)

/-- A binary floating-point value `num * 2 ^ exp` (exact dyadic rational). -/
structure Fp where
  num : Int
  exp : Int
  deriving DecidableEq

def Fp.val (u : Fp) : ℚ := (u.num : ℚ) * (2 : ℚ) ^ u.exp

/-- Round the rational `p / q` (`q ≥ 1`) to a `prec`-bit float. -/
def Fp.roundQ (prec : Nat) (p : Int) (q : Nat) : Fp :=
  if p = 0 then ⟨0, 0⟩
  else if 0 < p then ⟨((roundPos prec p.toNat q).1 : Int), (roundPos prec p.toNat q).2⟩
  else ⟨-((roundPos prec (-p).toNat q).1 : Int), (roundPos prec (-p).toNat q).2⟩

/-- The integer `u.num * 2 ^ (u.exp - m) + v.num * 2 ^ (v.exp - m)` for
`m = min u.exp v.exp`: the exact sum scaled by `2 ^ (-m)`. -/
def Fp.addNum (u v : Fp) : Int :=
  u.num * 2 ^ (u.exp - min u.exp v.exp).toNat + v.num * 2 ^ (v.exp - min u.exp v.exp).toNat

/-- Exact numerator/denominator of `u + v` (the denominator is a power of
two, at least 1). -/
def Fp.addRaw (u v : Fp) : Int × Nat :=
  if 0 ≤ min u.exp v.exp then (Fp.addNum u v * 2 ^ (min u.exp v.exp).toNat, 1)
  else (Fp.addNum u v, 2 ^ (-min u.exp v.exp).toNat)

def Fp.add (prec : Nat) (u v : Fp) : Fp :=
  Fp.roundQ prec (Fp.addRaw u v).1 (Fp.addRaw u v).2

def Fp.sub (prec : Nat) (u v : Fp) : Fp :=
  Fp.add prec u ⟨-v.num, v.exp⟩

/-- Exact numerator/denominator of `u * v`. -/
def Fp.mulRaw (u v : Fp) : Int × Nat :=
  if 0 ≤ u.exp + v.exp then (u.num * v.num * 2 ^ (u.exp + v.exp).toNat, 1)
  else (u.num * v.num, 2 ^ (-(u.exp + v.exp)).toNat)

def Fp.mul (prec : Nat) (u v : Fp) : Fp :=
  Fp.roundQ prec (Fp.mulRaw u v).1 (Fp.mulRaw u v).2

def Fp.divRawNum (u v : Fp) : Int :=
  if 0 ≤ u.exp - v.exp then u.num * 2 ^ (u.exp - v.exp).toNat else u.num

def Fp.divRawDen (u v : Fp) : Int :=
  if 0 ≤ u.exp - v.exp then v.num else v.num * 2 ^ (-(u.exp - v.exp)).toNat

/-- Exact numerator/denominator of `u / v` with a positive denominator
(`v.num ≠ 0` in every use). -/
def Fp.divRaw (u v : Fp) : Int × Nat :=
  if 0 < Fp.divRawDen u v then (Fp.divRawNum u v, (Fp.divRawDen u v).toNat)
  else (-Fp.divRawNum u v, (-Fp.divRawDen u v).toNat)

def Fp.div (prec : Nat) (u v : Fp) : Fp :=
  Fp.roundQ prec (Fp.divRaw u v).1 (Fp.divRaw u v).2

def Fp.blt (u v : Fp) : Bool :=
  decide (u.num * 2 ^ (u.exp - min u.exp v.exp).toNat
    < v.num * 2 ^ (v.exp - min u.exp v.exp).toNat)

/-- `f32::max` / `f64::max` on non-NaN values. -/
def Fp.fmax (u v : Fp) : Fp := if Fp.blt u v then v else u

def Fp.ofNat (prec n : Nat) : Fp := Fp.roundQ prec (n : Int) 1

/-- The saturating `as u8` cast: truncate toward zero, clamp to `0–255`. -/
def Fp.toU8 (u : Fp) : Nat :=
  if u.num ≤ 0 then 0
  else
    min (if 0 ≤ u.exp then u.num.toNat * 2 ^ u.exp.toNat else u.num.toNat / 2 ^ (-u.exp).toNat) 255

/-- The saturating `as usize` cast (64-bit). -/
def Fp.toUsize (u : Fp) : Nat :=
  if u.num ≤ 0 then 0
  else
    min (if 0 ≤ u.exp then u.num.toNat * 2 ^ u.exp.toNat else u.num.toNat / 2 ^ (-u.exp).toNat)
      (2 ^ 64 - 1)

/-! ### Analysis of the rounding functions -/

theorem two_zpow_pos (k : Int) : (0 : ℚ) < (2 : ℚ) ^ k :=
  zpow_pos (by norm_num) k

theorem q_pow_toNat (k : Int) (h : 0 ≤ k) : ((2 : ℚ) ^ k.toNat) = (2 : ℚ) ^ k := by
  rw [← zpow_natCast]
  congr 1
  exact Int.toNat_of_nonneg h

theorem pow2leFrac_iff (k : Int) (p q : Nat) (hq : 1 ≤ q) :
    pow2leFrac k p q = true ↔ (2 : ℚ) ^ k ≤ (p : ℚ) / q := by
  have hq0 : (0 : ℚ) < q := by exact_mod_cast hq
  unfold pow2leFrac
  by_cases hk : 0 ≤ k
  · rw [if_pos hk]
    simp only [decide_eq_true_eq]
    rw [le_div_iff₀ hq0, ← q_pow_toNat k hk]
    constructor
    · intro h
      have hcast : ((q * 2 ^ k.toNat : ℕ) : ℚ) ≤ (p : ℚ) := by exact_mod_cast h
      push_cast at hcast
      linarith
    · intro h
      have hcast : ((q : ℚ)) * 2 ^ k.toNat ≤ (p : ℚ) := by linarith
      exact_mod_cast hcast
  · rw [if_neg hk]
    simp only [decide_eq_true_eq]
    have hm : 0 ≤ -k := by omega
    have hpow : (0 : ℚ) < (2 : ℚ) ^ (-k).toNat := by positivity
    have hzp : (2 : ℚ) ^ k = 1 / (2 : ℚ) ^ (-k).toNat := by
      rw [q_pow_toNat _ hm, one_div, ← zpow_neg]
      congr 1
      omega
    rw [hzp, div_le_div_iff hpow hq0]
    constructor
    · intro h
      have hcast : ((q : ℚ)) ≤ ((p * 2 ^ (-k).toNat : ℕ) : ℚ) := by exact_mod_cast h
      push_cast at hcast
      linarith
    · intro h
      have hcast : ((q : ℚ)) ≤ (p : ℚ) * 2 ^ (-k).toNat := by linarith
      exact_mod_cast hcast

theorem flog2Frac_spec (p q : Nat) (hp : 1 ≤ p) (hq : 1 ≤ q) :
    (2 : ℚ) ^ flog2Frac p q ≤ (p : ℚ) / q
      ∧ (p : ℚ) / q < (2 : ℚ) ^ (flog2Frac p q + 1) := by
  have hq0 : (0 : ℚ) < q := by exact_mod_cast hq
  have hp0 : (0 : ℚ) < p := by exact_mod_cast hp
  obtain ⟨hpl, hpu⟩ := nlog2_spec p hp
  obtain ⟨hql, hqu⟩ := nlog2_spec q hq
  have hplq : ((2 : ℚ)) ^ (nlog2 p : ℕ) ≤ (p : ℚ) := by exact_mod_cast hpl
  have hpuq : (p : ℚ) < (2 : ℚ) ^ (nlog2 p + 1 : ℕ) := by exact_mod_cast hpu
  have hqlq : ((2 : ℚ)) ^ (nlog2 q : ℕ) ≤ (q : ℚ) := by exact_mod_cast hql
  have hquq : (q : ℚ) < (2 : ℚ) ^ (nlog2 q + 1 : ℕ) := by exact_mod_cast hqu
  set a : Int := (nlog2 p : Int) with ha
  set b : Int := (nlog2 q : Int) with hb
  have hza : (2 : ℚ) ^ a = (2 : ℚ) ^ (nlog2 p : ℕ) := by
    rw [← q_pow_toNat a (by positivity)]
    simp [ha]
  have hzb : (2 : ℚ) ^ b = (2 : ℚ) ^ (nlog2 q : ℕ) := by
    rw [← q_pow_toNat b (by positivity)]
    simp [hb]
  have hza1 : (2 : ℚ) ^ (a + 1) = (2 : ℚ) ^ (nlog2 p + 1 : ℕ) := by
    rw [zpow_add₀ (by norm_num : (2:ℚ) ≠ 0), hza]
    rw [pow_succ]
    norm_num
  have hzb1 : (2 : ℚ) ^ (b + 1) = (2 : ℚ) ^ (nlog2 q + 1 : ℕ) := by
    rw [zpow_add₀ (by norm_num : (2:ℚ) ≠ 0), hzb]
    rw [pow_succ]
    norm_num
  have upper : (p : ℚ) / q < (2 : ℚ) ^ (a - b + 1) := by
    have h1 : (p : ℚ) / q < (2 : ℚ) ^ (a + 1) / (2 : ℚ) ^ b := by
      rw [div_lt_div_iff hq0 (two_zpow_pos b)]
      calc (p : ℚ) * (2 : ℚ) ^ b ≤ (p : ℚ) * q := by
            apply mul_le_mul_of_nonneg_left ?_ (le_of_lt hp0)
            rw [hzb]; exact hqlq
        _ < (2 : ℚ) ^ (a + 1) * q := by
            apply mul_lt_mul_of_pos_right ?_ hq0
            rw [hza1]; exact hpuq
    calc (p : ℚ) / q < (2 : ℚ) ^ (a + 1) / (2 : ℚ) ^ b := h1
      _ = (2 : ℚ) ^ (a - b + 1) := by
          rw [← zpow_sub₀ (by norm_num : (2:ℚ) ≠ 0)]
          congr 1
          omega
  have lower : (2 : ℚ) ^ (a - b - 1) < (p : ℚ) / q := by
    have h1 : (2 : ℚ) ^ a / (2 : ℚ) ^ (b + 1) < (p : ℚ) / q := by
      rw [div_lt_div_iff (two_zpow_pos (b + 1)) hq0]
      calc (2 : ℚ) ^ a * q < (2 : ℚ) ^ a * (2 : ℚ) ^ (b + 1) := by
            apply mul_lt_mul_of_pos_left ?_ (two_zpow_pos a)
            rw [hzb1]; exact hquq
        _ ≤ (p : ℚ) * (2 : ℚ) ^ (b + 1) := by
            apply mul_le_mul_of_nonneg_right ?_ (le_of_lt (two_zpow_pos (b + 1)))
            rw [hza]; exact hplq
    calc (2 : ℚ) ^ (a - b - 1) = (2 : ℚ) ^ a / (2 : ℚ) ^ (b + 1) := by
          rw [← zpow_sub₀ (by norm_num : (2:ℚ) ≠ 0)]
          congr 1
          omega
      _ < (p : ℚ) / q := h1
  unfold flog2Frac
  by_cases hle : pow2leFrac ((nlog2 p : Int) - (nlog2 q : Int)) p q = true
  · rw [if_pos hle]
    exact ⟨(pow2leFrac_iff _ p q hq).mp hle, upper⟩
  · rw [if_neg hle]
    have hnot : ¬((2 : ℚ) ^ (a - b) ≤ (p : ℚ) / q) := fun h =>
      hle ((pow2leFrac_iff _ p q hq).mpr h)
    constructor
    · exact le_of_lt lower
    · have : a - b - 1 + 1 = a - b := by omega
      rw [this]
      exact lt_of_not_le hnot

theorem rnePos_abs (p q : Nat) (hq : 1 ≤ q) :
    |(rnePos p q : ℚ) - (p : ℚ) / q| ≤ 1 / 2 := by
  obtain ⟨h1, h2⟩ := rnePos_bounds p q hq
  rw [abs_le]
  constructor <;> linarith

theorem abs_scaled (m : ℚ) (e : Int) (z : ℚ) (h : |m - z * (2 : ℚ) ^ (-e)| ≤ 1 / 2) :
    |m * (2 : ℚ) ^ e - z| ≤ (2 : ℚ) ^ (e - 1) := by
  have h2 : (0 : ℚ) < (2 : ℚ) ^ e := two_zpow_pos e
  have hcancel : (2 : ℚ) ^ (-e) * (2 : ℚ) ^ e = 1 := by
    rw [← zpow_add₀ (by norm_num : (2 : ℚ) ≠ 0)]
    norm_num
  have key : (m - z * (2 : ℚ) ^ (-e)) * (2 : ℚ) ^ e = m * (2 : ℚ) ^ e - z := by
    have h1 : z * ((2 : ℚ) ^ (-e) * (2 : ℚ) ^ e) = z := by rw [hcancel, mul_one]
    linear_combination -h1
  rw [← key, abs_mul, abs_of_pos h2]
  calc |m - z * (2 : ℚ) ^ (-e)| * (2 : ℚ) ^ e ≤ (1 / 2) * (2 : ℚ) ^ e :=
        mul_le_mul_of_nonneg_right h (le_of_lt h2)
    _ = (2 : ℚ) ^ (e - 1) := by
        rw [zpow_sub₀ (by norm_num : (2 : ℚ) ≠ 0), zpow_one]
        ring

theorem roundExp_sub_one (prec p q : Nat) (hprec : 1 ≤ prec) :
    roundExp prec p q - 1 = flog2Frac p q - (prec : Int) := by
  unfold roundExp
  omega

theorem roundPos_err (prec p q : Nat) (hprec : 1 ≤ prec) (hp : 1 ≤ p) (hq : 1 ≤ q) :
    |((roundPos prec p q).1 : ℚ) * (2 : ℚ) ^ (roundPos prec p q).2 - (p : ℚ) / q|
      ≤ ((p : ℚ) / q) * (2 : ℚ) ^ (-(prec : Int)) := by
  have hq0 : (0 : ℚ) < q := by exact_mod_cast hq
  have hp0 : (0 : ℚ) < p := by exact_mod_cast hp
  obtain ⟨hk1, _⟩ := flog2Frac_spec p q hp hq
  have hbound : (2 : ℚ) ^ (roundExp prec p q - 1)
      ≤ ((p : ℚ) / q) * (2 : ℚ) ^ (-(prec : Int)) := by
    rw [roundExp_sub_one prec p q hprec]
    have hsplit : (2 : ℚ) ^ (flog2Frac p q - (prec : Int))
        = (2 : ℚ) ^ flog2Frac p q * (2 : ℚ) ^ (-(prec : Int)) := by
      rw [← zpow_add₀ (by norm_num : (2 : ℚ) ≠ 0)]
      congr 1
    rw [hsplit]
    exact mul_le_mul_of_nonneg_right hk1 (le_of_lt (two_zpow_pos _))
  unfold roundPos
  by_cases he : (0 : Int) ≤ roundExp prec p q
  · rw [if_pos he]
    simp only
    have hden : 1 ≤ q * 2 ^ (roundExp prec p q).toNat := by
      have h2 : 1 ≤ 2 ^ (roundExp prec p q).toNat := Nat.one_le_two_pow
      calc 1 = 1 * 1 := by norm_num
        _ ≤ q * 2 ^ (roundExp prec p q).toNat := Nat.mul_le_mul hq h2
    have hr := rnePos_abs p (q * 2 ^ (roundExp prec p q).toNat) hden
    have hfrac : (p : ℚ) / ((q * 2 ^ (roundExp prec p q).toNat : ℕ) : ℚ)
        = ((p : ℚ) / q) * (2 : ℚ) ^ (-roundExp prec p q) := by
      push_cast
      rw [q_pow_toNat _ he, zpow_neg]
      field_simp
    rw [hfrac] at hr
    exact le_trans (abs_scaled _ _ _ hr) hbound
  · rw [if_neg he]
    simp only
    have hm : (0 : Int) ≤ -roundExp prec p q := by omega
    have hnum : 1 ≤ p * 2 ^ (-roundExp prec p q).toNat := by
      have h2 : 1 ≤ 2 ^ (-roundExp prec p q).toNat := Nat.one_le_two_pow
      calc 1 = 1 * 1 := by norm_num
        _ ≤ p * 2 ^ (-roundExp prec p q).toNat := Nat.mul_le_mul hp h2
    have hr := rnePos_abs (p * 2 ^ (-roundExp prec p q).toNat) q hq
    have hfrac : ((p * 2 ^ (-roundExp prec p q).toNat : ℕ) : ℚ) / q
        = ((p : ℚ) / q) * (2 : ℚ) ^ (-roundExp prec p q) := by
      push_cast
      rw [q_pow_toNat _ hm]
      ring
    rw [hfrac] at hr
    exact le_trans (abs_scaled _ _ _ hr) hbound

/-- The values these programs round are nonzero with magnitude determined
by `p / q`; the rounding error of `Fp.roundQ` is relatively bounded by
`2 ^ (-prec)`. -/
theorem roundQ_err (prec : Nat) (p : Int) (q : Nat) (hprec : 1 ≤ prec) (hq : 1 ≤ q) :
    |(Fp.roundQ prec p q).val - (p : ℚ) / q| ≤ |(p : ℚ) / q| * (2 : ℚ) ^ (-(prec : Int)) := by
  have hq0 : (0 : ℚ) < q := by exact_mod_cast hq
  unfold Fp.roundQ
  by_cases h0 : p = 0
  · rw [if_pos h0, h0]
    simp [Fp.val]
  · rw [if_neg h0]
    by_cases hpos : 0 < p
    · rw [if_pos hpos]
      have hp1 : 1 ≤ p.toNat := by omega
      have h := roundPos_err prec p.toNat q hprec hp1 hq
      have hcast : ((p.toNat : ℕ) : ℚ) = (p : ℚ) := by
        have hh := Int.toNat_of_nonneg (le_of_lt hpos)
        exact_mod_cast hh
      rw [hcast] at h
      have habs : |(p : ℚ) / q| = (p : ℚ) / q := by
        apply abs_of_pos
        apply div_pos ?_ hq0
        exact_mod_cast hpos
      rw [habs]
      exact h
    · rw [if_neg hpos]
      have hneg : 0 < -p := by omega
      have hp1 : 1 ≤ (-p).toNat := by omega
      have h := roundPos_err prec (-p).toNat q hprec hp1 hq
      have hcast : (((-p).toNat : ℕ) : ℚ) = -(p : ℚ) := by
        have hh := Int.toNat_of_nonneg (le_of_lt hneg)
        exact_mod_cast hh
      rw [hcast] at h
      have habs : |(p : ℚ) / q| = -(p : ℚ) / q := by
        rw [abs_of_neg]
        · ring
        · apply div_neg_of_neg_of_pos ?_ hq0
          exact_mod_cast (by omega : p < 0)
      rw [habs]
      have hval : (Fp.val ⟨-(((roundPos prec (-p).toNat q).1 : ℕ) : Int),
          (roundPos prec (-p).toNat q).2⟩)
          = -(((roundPos prec (-p).toNat q).1 : ℕ) : ℚ)
              * (2 : ℚ) ^ (roundPos prec (-p).toNat q).2 := by
        unfold Fp.val
        push_cast
        ring
      rw [hval]
      calc |-(((roundPos prec (-p).toNat q).1 : ℕ) : ℚ)
            * (2 : ℚ) ^ (roundPos prec (-p).toNat q).2 - (p : ℚ) / q|
          = |(((roundPos prec (-p).toNat q).1 : ℕ) : ℚ)
            * (2 : ℚ) ^ (roundPos prec (-p).toNat q).2 - -(p : ℚ) / q| := by
            rw [← abs_neg]
            congr 1
            ring
        _ ≤ -(p : ℚ) / q * (2 : ℚ) ^ (-(prec : Int)) := by
            have : -(p : ℚ) / q = (-p : ℤ) / (q : ℚ) := by push_cast; ring
            rw [this]
            exact_mod_cast h

/-- The rounded value of a nonnegative fraction is bounded below and above
by the relative error. -/
theorem roundQ_ge (prec : Nat) (p : Int) (q : Nat) (hprec : 1 ≤ prec) (hq : 1 ≤ q)
    (hp : 0 ≤ p) :
    ((p : ℚ) / q) * (1 - (2 : ℚ) ^ (-(prec : Int))) ≤ (Fp.roundQ prec p q).val := by
  have h := roundQ_err prec p q hprec hq
  have hq0 : (0 : ℚ) < q := by exact_mod_cast hq
  have hz : (0 : ℚ) ≤ (p : ℚ) / q := by
    apply div_nonneg ?_ (le_of_lt hq0)
    exact_mod_cast hp
  rw [abs_le, abs_of_nonneg hz] at h
  nlinarith [h.1, h.2]

theorem roundQ_le (prec : Nat) (p : Int) (q : Nat) (hprec : 1 ≤ prec) (hq : 1 ≤ q)
    (hp : 0 ≤ p) :
    (Fp.roundQ prec p q).val ≤ ((p : ℚ) / q) * (1 + (2 : ℚ) ^ (-(prec : Int))) := by
  have h := roundQ_err prec p q hprec hq
  have hq0 : (0 : ℚ) < q := by exact_mod_cast hq
  have hz : (0 : ℚ) ≤ (p : ℚ) / q := by
    apply div_nonneg ?_ (le_of_lt hq0)
    exact_mod_cast hp
  rw [abs_le, abs_of_nonneg hz] at h
  nlinarith [h.1, h.2]

/-! ### Exact values of the raw fraction builders -/

theorem two_q_ne : (2 : ℚ) ≠ 0 := by norm_num

theorem addNum_val (u v : Fp) :
    ((Fp.addNum u v : Int) : ℚ) * (2 : ℚ) ^ min u.exp v.exp = u.val + v.val := by
  have h1 : (0 : Int) ≤ u.exp - min u.exp v.exp := by omega
  have h2 : (0 : Int) ≤ v.exp - min u.exp v.exp := by omega
  have e1 : (2 : ℚ) ^ (u.exp - min u.exp v.exp) * (2 : ℚ) ^ min u.exp v.exp
      = (2 : ℚ) ^ u.exp := by
    rw [← zpow_add₀ two_q_ne]
    congr 1
    omega
  have e2 : (2 : ℚ) ^ (v.exp - min u.exp v.exp) * (2 : ℚ) ^ min u.exp v.exp
      = (2 : ℚ) ^ v.exp := by
    rw [← zpow_add₀ two_q_ne]
    congr 1
    omega
  unfold Fp.addNum Fp.val
  push_cast
  rw [q_pow_toNat _ h1, q_pow_toNat _ h2]
  linear_combination (u.num : ℚ) * e1 + (v.num : ℚ) * e2

theorem addRaw_den_pos (u v : Fp) : 1 ≤ (Fp.addRaw u v).2 := by
  unfold Fp.addRaw
  by_cases h : (0 : Int) ≤ min u.exp v.exp
  · rw [if_pos h]
  · rw [if_neg h]
    exact Nat.one_le_two_pow

theorem addRaw_val (u v : Fp) :
    (((Fp.addRaw u v).1 : Int) : ℚ) / (((Fp.addRaw u v).2 : ℕ) : ℚ) = u.val + v.val := by
  rw [← addNum_val u v]
  unfold Fp.addRaw
  by_cases h : (0 : Int) ≤ min u.exp v.exp
  · rw [if_pos h]
    simp only
    push_cast
    rw [q_pow_toNat _ h]
    field_simp
  · rw [if_neg h]
    simp only
    push_cast
    have hm : (0 : Int) ≤ -min u.exp v.exp := by omega
    rw [q_pow_toNat _ hm]
    rw [div_eq_iff (ne_of_gt (two_zpow_pos (-min u.exp v.exp)))]
    rw [mul_assoc, ← zpow_add₀ two_q_ne]
    norm_num

theorem mulRaw_den_pos (u v : Fp) : 1 ≤ (Fp.mulRaw u v).2 := by
  unfold Fp.mulRaw
  by_cases h : (0 : Int) ≤ u.exp + v.exp
  · rw [if_pos h]
  · rw [if_neg h]
    exact Nat.one_le_two_pow

theorem mulRaw_val (u v : Fp) :
    (((Fp.mulRaw u v).1 : Int) : ℚ) / (((Fp.mulRaw u v).2 : ℕ) : ℚ) = u.val * v.val := by
  have hval : u.val * v.val = (u.num : ℚ) * v.num * (2 : ℚ) ^ (u.exp + v.exp) := by
    unfold Fp.val
    rw [zpow_add₀ two_q_ne]
    ring
  rw [hval]
  unfold Fp.mulRaw
  by_cases h : (0 : Int) ≤ u.exp + v.exp
  · rw [if_pos h]
    simp only
    push_cast
    rw [q_pow_toNat _ h]
    field_simp
  · rw [if_neg h]
    simp only
    push_cast
    have hm : (0 : Int) ≤ -(u.exp + v.exp) := by omega
    rw [q_pow_toNat _ hm]
    rw [div_eq_iff (ne_of_gt (two_zpow_pos (-(u.exp + v.exp))))]
    have hcancel : (2 : ℚ) ^ (u.exp + v.exp) * (2 : ℚ) ^ (-(u.exp + v.exp)) = 1 := by
      rw [← zpow_add₀ two_q_ne]
      rw [show u.exp + v.exp + -(u.exp + v.exp) = 0 from by omega]
      norm_num
    rw [mul_assoc, hcancel, mul_one]

theorem divRawDen_ne (u v : Fp) (hv : v.num ≠ 0) : Fp.divRawDen u v ≠ 0 := by
  unfold Fp.divRawDen
  by_cases h : (0 : Int) ≤ u.exp - v.exp
  · rw [if_pos h]; exact hv
  · rw [if_neg h]
    intro hcon
    rcases mul_eq_zero.mp hcon with h0 | h0
    · exact hv h0
    · exact absurd h0 (by positivity)

theorem divRaw_den_pos (u v : Fp) (hv : v.num ≠ 0) : 1 ≤ (Fp.divRaw u v).2 := by
  have hne := divRawDen_ne u v hv
  unfold Fp.divRaw
  by_cases h : (0 : Int) < Fp.divRawDen u v
  · rw [if_pos h]; omega
  · rw [if_neg h]
    have : Fp.divRawDen u v < 0 := by omega
    omega

theorem divRawPair_val (u v : Fp) (hv : v.num ≠ 0) :
    ((Fp.divRawNum u v : Int) : ℚ) / ((Fp.divRawDen u v : Int) : ℚ) = u.val / v.val := by
  have hval : u.val / v.val = ((u.num : ℚ) / v.num) * (2 : ℚ) ^ (u.exp - v.exp) := by
    unfold Fp.val
    rw [zpow_sub₀ two_q_ne]
    have hvq : ((v.num : ℚ)) ≠ 0 := by exact_mod_cast hv
    field_simp
  rw [hval]
  unfold Fp.divRawNum Fp.divRawDen
  have hvq : ((v.num : ℚ)) ≠ 0 := by exact_mod_cast hv
  by_cases h : (0 : Int) ≤ u.exp - v.exp
  · rw [if_pos h, if_pos h]
    push_cast
    rw [q_pow_toNat _ h]
    field_simp
  · rw [if_neg h, if_neg h]
    push_cast
    have hm : (0 : Int) ≤ -(u.exp - v.exp) := by omega
    rw [q_pow_toNat _ hm]
    have hzm : ((2 : ℚ) ^ (-(u.exp - v.exp))) ≠ 0 := ne_of_gt (two_zpow_pos _)
    have hcancel : (2 : ℚ) ^ (u.exp - v.exp) * (2 : ℚ) ^ (-(u.exp - v.exp)) = 1 := by
      rw [← zpow_add₀ two_q_ne]
      norm_num
    rw [div_eq_iff (mul_ne_zero hvq hzm)]
    symm
    calc (u.num : ℚ) / v.num * (2 : ℚ) ^ (u.exp - v.exp)
          * ((v.num : ℚ) * (2 : ℚ) ^ (-(u.exp - v.exp)))
        = (u.num : ℚ) / v.num * (v.num : ℚ)
            * ((2 : ℚ) ^ (u.exp - v.exp) * (2 : ℚ) ^ (-(u.exp - v.exp))) := by ring
      _ = (u.num : ℚ) := by
          rw [hcancel, mul_one, div_mul_cancel₀ _ hvq]

theorem divRaw_val (u v : Fp) (hv : v.num ≠ 0) :
    (((Fp.divRaw u v).1 : Int) : ℚ) / (((Fp.divRaw u v).2 : ℕ) : ℚ) = u.val / v.val := by
  rw [← divRawPair_val u v hv]
  have hne := divRawDen_ne u v hv
  unfold Fp.divRaw
  by_cases h : (0 : Int) < Fp.divRawDen u v
  · rw [if_pos h]
    simp only
    congr 1
    exact_mod_cast Int.toNat_of_nonneg (le_of_lt h)
  · rw [if_neg h]
    simp only
    have hlt : Fp.divRawDen u v < 0 := by omega
    have hcast : (((-Fp.divRawDen u v).toNat : ℕ) : ℚ) = -((Fp.divRawDen u v : Int) : ℚ) := by
      have hh := Int.toNat_of_nonneg (by omega : (0 : Int) ≤ -Fp.divRawDen u v)
      exact_mod_cast hh
    rw [hcast]
    push_cast
    rw [div_neg, neg_div, neg_neg]

/-! ### Signs, exact small integers, and the saturating casts -/

theorem roundQ_num_nonneg (prec : Nat) (p : Int) (q : Nat) (hp : 0 ≤ p) :
    0 ≤ (Fp.roundQ prec p q).num := by
  unfold Fp.roundQ
  by_cases h0 : p = 0
  · rw [if_pos h0]
  · rw [if_neg h0, if_pos (by omega)]
    positivity

theorem fp_val_nonneg (u : Fp) (h : 0 ≤ u.num) : 0 ≤ u.val := by
  unfold Fp.val
  have h2 := two_zpow_pos u.exp
  have hq : (0 : ℚ) ≤ (u.num : ℚ) := by exact_mod_cast h
  positivity

theorem fp_num_pos_of_val_pos (u : Fp) (h : 0 < u.val) : 0 < u.num := by
  by_contra hcon
  push_neg at hcon
  have hq : (u.num : ℚ) ≤ 0 := by exact_mod_cast hcon
  have : u.val ≤ 0 := by
    unfold Fp.val
    have h2 := two_zpow_pos u.exp
    nlinarith
  linarith

theorem rnePos_one (p : Nat) : rnePos p 1 = p := by
  unfold rnePos
  rw [Nat.mod_one, Nat.div_one]
  norm_num

theorem fp_ofNat_zero (prec : Nat) : Fp.ofNat prec 0 = ⟨0, 0⟩ := rfl

/-- Integers below `2 ^ prec` convert to floating point exactly. -/
theorem fp_ofNat_val (prec n : Nat) (hprec : 1 ≤ prec) (h1 : 1 ≤ n) (hn : n < 2 ^ prec) :
    (Fp.ofNat prec n).val = n := by
  have hq1 : (1 : ℚ) ≤ 1 := le_refl 1
  obtain ⟨hk1, hk2⟩ := flog2Frac_spec n 1 h1 (le_refl 1)
  rw [Nat.cast_one, div_one] at hk1 hk2
  have hklt : flog2Frac n 1 < (prec : Int) := by
    by_contra hcon
    push_neg at hcon
    have hmono : (2 : ℚ) ^ ((prec : Nat) : Int) ≤ (2 : ℚ) ^ flog2Frac n 1 := by
      apply zpow_le_zpow_right₀ (by norm_num) hcon
    have hcast : ((2 ^ prec : ℕ) : ℚ) = (2 : ℚ) ^ ((prec : Nat) : Int) := by
      push_cast
      rw [← zpow_natCast]
    have : ((2 ^ prec : ℕ) : ℚ) ≤ (n : ℚ) := by
      rw [hcast]
      exact le_trans hmono hk1
    have : (2 ^ prec : ℕ) ≤ n := by exact_mod_cast this
    omega
  have he : roundExp prec n 1 ≤ 0 := by
    unfold roundExp
    omega
  unfold Fp.ofNat Fp.roundQ
  rw [if_neg (by exact_mod_cast Nat.pos_iff_ne_zero.mp h1), if_pos (by exact_mod_cast h1)]
  have htn : ((n : Int)).toNat = n := Int.toNat_natCast n
  rw [htn]
  unfold roundPos
  by_cases hee : (0 : Int) ≤ roundExp prec n 1
  · rw [if_pos hee]
    have he0 : roundExp prec n 1 = 0 := le_antisymm he hee
    unfold Fp.val
    simp only [he0]
    norm_num [rnePos_one]
  · rw [if_neg hee]
    unfold Fp.val
    simp only
    have hm : (0 : Int) ≤ -roundExp prec n 1 := by omega
    rw [rnePos_one]
    push_cast
    rw [q_pow_toNat _ hm, mul_assoc, ← zpow_add₀ two_q_ne]
    rw [show -roundExp prec n 1 + roundExp prec n 1 = 0 from by omega]
    norm_num

/-- The truncation used in the saturating casts never exceeds `W` when the
value is below `W + 1`. -/
theorem fp_floor_le (u : Fp) (W : Nat) (hnpos : 0 < u.num) (hval : u.val < (W : ℚ) + 1) :
    (if (0 : Int) ≤ u.exp then u.num.toNat * 2 ^ u.exp.toNat
      else u.num.toNat / 2 ^ (-u.exp).toNat) ≤ W := by
  have hcast : ((u.num.toNat : ℕ) : ℚ) = (u.num : ℚ) := by
    have hh := Int.toNat_of_nonneg (le_of_lt hnpos)
    exact_mod_cast hh
  by_cases he : (0 : Int) ≤ u.exp
  · rw [if_pos he]
    have ht : ((u.num.toNat * 2 ^ u.exp.toNat : ℕ) : ℚ) = u.val := by
      unfold Fp.val
      push_cast
      rw [q_pow_toNat _ he]
      rw [hcast]
    have hlt : ((u.num.toNat * 2 ^ u.exp.toNat : ℕ) : ℚ) < (W : ℚ) + 1 := by
      rw [ht]
      linarith
    have hfin : u.num.toNat * 2 ^ u.exp.toNat < W + 1 := by exact_mod_cast hlt
    omega
  · rw [if_neg he]
    have hm : (0 : Int) ≤ -u.exp := by omega
    have hval2 : u.val = (u.num : ℚ) / (2 : ℚ) ^ (-u.exp).toNat := by
      unfold Fp.val
      rw [q_pow_toNat _ hm]
      rw [eq_div_iff (ne_of_gt (two_zpow_pos (-u.exp)))]
      rw [mul_assoc, ← zpow_add₀ two_q_ne]
      rw [show u.exp + -u.exp = 0 from by omega]
      norm_num
    have hle : ((u.num.toNat / 2 ^ (-u.exp).toNat : ℕ) : ℚ) ≤ u.val := by
      rw [hval2]
      calc ((u.num.toNat / 2 ^ (-u.exp).toNat : ℕ) : ℚ)
          ≤ ((u.num.toNat : ℕ) : ℚ) / ((2 ^ (-u.exp).toNat : ℕ) : ℚ) := Nat.cast_div_le
        _ = (u.num : ℚ) / (2 : ℚ) ^ (-u.exp).toNat := by
            rw [hcast]
            norm_num
    have hlt : ((u.num.toNat / 2 ^ (-u.exp).toNat : ℕ) : ℚ) < (W : ℚ) + 1 :=
      lt_of_le_of_lt hle hval
    have hfin : u.num.toNat / 2 ^ (-u.exp).toNat < W + 1 := by exact_mod_cast hlt
    omega

theorem toUsize_le (u : Fp) (W : Nat) (hval : u.val < (W : ℚ) + 1) : Fp.toUsize u ≤ W := by
  unfold Fp.toUsize
  by_cases hn : u.num ≤ 0
  · rw [if_pos hn]
    exact Nat.zero_le W
  · rw [if_neg hn]
    exact le_trans (min_le_left _ _) (fp_floor_le u W (by omega) hval)

theorem toU8_le_255 (u : Fp) : Fp.toU8 u ≤ 255 := by
  unfold Fp.toU8
  by_cases hn : u.num ≤ 0
  · rw [if_pos hn]
    omega
  · rw [if_neg hn]
    exact min_le_right _ _

theorem toU8_ge (u : Fp) (c : Nat) (hc : c ≤ 255) (hc1 : 1 ≤ c) (h : (c : ℚ) ≤ u.val) :
    c ≤ Fp.toU8 u := by
  have hvpos : 0 < u.val := lt_of_lt_of_le (by exact_mod_cast hc1) h
  have hnpos : 0 < u.num := fp_num_pos_of_val_pos u hvpos
  have hcast : ((u.num.toNat : ℕ) : ℚ) = (u.num : ℚ) := by
    have hh := Int.toNat_of_nonneg (le_of_lt hnpos)
    exact_mod_cast hh
  unfold Fp.toU8
  rw [if_neg (by omega)]
  apply le_min ?_ hc
  by_cases he : (0 : Int) ≤ u.exp
  · rw [if_pos he]
    have ht : ((u.num.toNat * 2 ^ u.exp.toNat : ℕ) : ℚ) = u.val := by
      unfold Fp.val
      push_cast
      rw [q_pow_toNat _ he]
      rw [hcast]
    have : ((c : ℕ) : ℚ) ≤ ((u.num.toNat * 2 ^ u.exp.toNat : ℕ) : ℚ) := by
      rw [ht]
      exact h
    exact_mod_cast this
  · rw [if_neg he]
    have hm : (0 : Int) ≤ -u.exp := by omega
    have hpow : (0 : ℚ) < ((2 ^ (-u.exp).toNat : ℕ) : ℚ) := by positivity
    have hval2 : u.val * ((2 ^ (-u.exp).toNat : ℕ) : ℚ) = (u.num : ℚ) := by
      unfold Fp.val
      push_cast
      rw [q_pow_toNat _ hm, mul_assoc, ← zpow_add₀ two_q_ne]
      rw [show u.exp + -u.exp = 0 from by omega]
      norm_num
    have hkey : (c : ℚ) * ((2 ^ (-u.exp).toNat : ℕ) : ℚ) ≤ (u.num : ℚ) := by
      rw [← hval2]
      exact mul_le_mul_of_nonneg_right h (le_of_lt hpow)
    have hnat : c * 2 ^ (-u.exp).toNat ≤ u.num.toNat := by
      have : ((c * 2 ^ (-u.exp).toNat : ℕ) : ℚ) ≤ ((u.num.toNat : ℕ) : ℚ) := by
        rw [hcast]
        push_cast
        push_cast at hkey
        linarith
      exact_mod_cast this
    rw [Nat.le_div_iff_mul_le (by positivity)]
    exact hnat

/-! ### Relative error of the rounded operations -/

theorem raw_num_nonneg_of_val (p : Int) (q : Nat) (hq : 1 ≤ q)
    (hval : 0 ≤ (p : ℚ) / (q : ℚ)) : 0 ≤ p := by
  have hq0 : (0 : ℚ) < q := by exact_mod_cast hq
  have : (0 : ℚ) ≤ (p : ℚ) := by
    have := mul_le_mul_of_nonneg_right hval (le_of_lt hq0)
    rw [div_mul_cancel₀] at this
    · linarith
    · exact ne_of_gt hq0
  exact_mod_cast this

theorem fp_add_val_bounds (prec : Nat) (u v : Fp) (hprec : 1 ≤ prec)
    (hsum : 0 ≤ u.val + v.val) :
    (u.val + v.val) * (1 - (2 : ℚ) ^ (-(prec : Int))) ≤ (Fp.add prec u v).val
      ∧ (Fp.add prec u v).val ≤ (u.val + v.val) * (1 + (2 : ℚ) ^ (-(prec : Int))) := by
  have hq := addRaw_den_pos u v
  have hval := addRaw_val u v
  have hp : 0 ≤ (Fp.addRaw u v).1 :=
    raw_num_nonneg_of_val _ _ hq (by rw [hval]; exact hsum)
  unfold Fp.add
  constructor
  · have := roundQ_ge prec (Fp.addRaw u v).1 (Fp.addRaw u v).2 hprec hq hp
    rw [hval] at this
    exact this
  · have := roundQ_le prec (Fp.addRaw u v).1 (Fp.addRaw u v).2 hprec hq hp
    rw [hval] at this
    exact this

theorem fp_mul_val_bounds (prec : Nat) (u v : Fp) (hprec : 1 ≤ prec)
    (hprod : 0 ≤ u.val * v.val) :
    u.val * v.val * (1 - (2 : ℚ) ^ (-(prec : Int))) ≤ (Fp.mul prec u v).val
      ∧ (Fp.mul prec u v).val ≤ u.val * v.val * (1 + (2 : ℚ) ^ (-(prec : Int))) := by
  have hq := mulRaw_den_pos u v
  have hval := mulRaw_val u v
  have hp : 0 ≤ (Fp.mulRaw u v).1 :=
    raw_num_nonneg_of_val _ _ hq (by rw [hval]; exact hprod)
  unfold Fp.mul
  constructor
  · have := roundQ_ge prec (Fp.mulRaw u v).1 (Fp.mulRaw u v).2 hprec hq hp
    rw [hval] at this
    exact this
  · have := roundQ_le prec (Fp.mulRaw u v).1 (Fp.mulRaw u v).2 hprec hq hp
    rw [hval] at this
    exact this

theorem fp_mul_num_nonneg (prec : Nat) (u v : Fp) (hu : 0 ≤ u.num) (hv : 0 ≤ v.num) :
    0 ≤ (Fp.mul prec u v).num := by
  apply roundQ_num_nonneg
  unfold Fp.mulRaw
  by_cases h : (0 : Int) ≤ u.exp + v.exp
  · rw [if_pos h]
    positivity
  · rw [if_neg h]
    positivity

theorem fp_div_num_nonneg (prec : Nat) (u v : Fp) (hu : 0 ≤ u.num) (hv : 0 < v.num) :
    0 ≤ (Fp.div prec u v).num := by
  apply roundQ_num_nonneg
  have hden : 0 < Fp.divRawDen u v := by
    unfold Fp.divRawDen
    by_cases h : (0 : Int) ≤ u.exp - v.exp
    · rw [if_pos h]; exact hv
    · rw [if_neg h]; positivity
  unfold Fp.divRaw
  rw [if_pos hden]
  unfold Fp.divRawNum
  by_cases h : (0 : Int) ≤ u.exp - v.exp
  · rw [if_pos h]; positivity
  · rw [if_neg h]; exact hu

theorem fp_blt_iff (u v : Fp) : Fp.blt u v = true ↔ u.val < v.val := by
  unfold Fp.blt
  simp only [decide_eq_true_eq]
  have h1 : (0 : Int) ≤ u.exp - min u.exp v.exp := by omega
  have h2 : (0 : Int) ≤ v.exp - min u.exp v.exp := by omega
  have key : ∀ w : Fp, (0 : Int) ≤ w.exp - min u.exp v.exp →
      ((w.num * 2 ^ (w.exp - min u.exp v.exp).toNat : ℤ) : ℚ)
        = w.val * (2 : ℚ) ^ (-min u.exp v.exp) := by
    intro w hw
    unfold Fp.val
    push_cast
    rw [q_pow_toNat _ hw, mul_assoc, ← zpow_add₀ two_q_ne]
    congr 1
  constructor
  · intro h
    have hq : ((u.num * 2 ^ (u.exp - min u.exp v.exp).toNat : ℤ) : ℚ)
        < ((v.num * 2 ^ (v.exp - min u.exp v.exp).toNat : ℤ) : ℚ) := by exact_mod_cast h
    rw [key u h1, key v h2] at hq
    exact lt_of_mul_lt_mul_right hq (le_of_lt (two_zpow_pos _))
  · intro h
    have hq : u.val * (2 : ℚ) ^ (-min u.exp v.exp)
        < v.val * (2 : ℚ) ^ (-min u.exp v.exp) :=
      mul_lt_mul_of_pos_right h (two_zpow_pos _)
    rw [← key u h1, ← key v h2] at hq
    exact_mod_cast hq

/-! ## The gradient effect (`StyledText::gradient`) -/

/-- One channel of the gradient at character index `i` of `L`:
`ratio = i as f32 / (len - 1.0).max(1.0)` and then
`(start + (end - start) * ratio) as u8`, every operation in `f32`. -/
def gradChannel (s e i L : Nat) : Nat :=
  Fp.toU8 (Fp.add 24 (Fp.ofNat 24 s)
    (Fp.mul 24 (Fp.sub 24 (Fp.ofNat 24 e) (Fp.ofNat 24 s))
      (Fp.div 24 (Fp.ofNat 24 i)
        (Fp.fmax (Fp.sub 24 (Fp.ofNat 24 L) (Fp.ofNat 24 1)) (Fp.ofNat 24 1)))))

/-- The segment pushed for one character:
`format!("\x1b[38;2;{};{};{}m{}", r, g, b, ch)`. -/
def gradSeg (sc ec : Nat × Nat × Nat) (L : Nat) (p : Nat × Char) : String :=
  fgCode (gradChannel sc.1 ec.1 p.1 L) (gradChannel sc.2.1 ec.2.1 p.1 L)
      (gradChannel sc.2.2 ec.2.2 p.1 L)
    ++ String.singleton p.2

/-- `StyledText::gradient`: early return on empty text, else one colored
segment per character (`enumerate`) followed by a single reset code. -/
def StyledText.gradient (text : String) (sc ec : Nat × Nat × Nat) : String :=
  if text.data.isEmpty then ""
  else concatAll (text.data.enum.map (gradSeg sc ec text.data.length)) ++ "\x1b[0m"

/-! ### C3: gradient structure and the single-character edge case -/

theorem fp_mul_zero (prec : Nat) (u : Fp) : Fp.mul prec u ⟨0, 0⟩ = ⟨0, 0⟩ := by
  unfold Fp.mul Fp.mulRaw Fp.roundQ
  by_cases h : (0 : Int) ≤ u.exp
  · simp [h]
  · simp [h]

set_option maxRecDepth 100000 in
theorem fp_add_zero_toU8 :
    ∀ s : Nat, s ≤ 255 → Fp.toU8 (Fp.add 24 (Fp.ofNat 24 s) ⟨0, 0⟩) = s := by
  decide

/-- On a single-character text the interpolation ratio is `0 / 1 = 0.0`
exactly, so the emitted color is exactly the start color. -/
theorem gradChannel_single (s e : Nat) (hs : s ≤ 255) : gradChannel s e 0 1 = s := by
  have hratio :
      Fp.div 24 (Fp.ofNat 24 0)
        (Fp.fmax (Fp.sub 24 (Fp.ofNat 24 1) (Fp.ofNat 24 1)) (Fp.ofNat 24 1)) = ⟨0, 0⟩ := by
    decide
  unfold gradChannel
  rw [hratio, fp_mul_zero]
  exact fp_add_zero_toU8 s hs

/-- C3: `gradient` on the empty text is the empty string with no escape
codes; on a nonempty text of `L` characters it is exactly `L` per-character
segments (each `ESC[38;2;R;G;Bm` followed by the character) terminated by a
single trailing `ESC[0m`; and for a single-character text the one emitted
color is exactly the start color (ratio 0). -/
theorem c3_gradient_shape :
    (∀ sc ec : Nat × Nat × Nat, StyledText.gradient "" sc ec = "")
    ∧ (∀ (s : String) (sc ec : Nat × Nat × Nat), s.data ≠ [] →
        StyledText.gradient s sc ec
          = concatAll (s.data.enum.map (gradSeg sc ec s.data.length)) ++ "\x1b[0m"
        ∧ (s.data.enum.map (gradSeg sc ec s.data.length)).length = s.data.length)
    ∧ (∀ (c : Char) (r1 g1 b1 r2 g2 b2 : Nat), r1 ≤ 255 → g1 ≤ 255 → b1 ≤ 255 →
        StyledText.gradient (String.singleton c) (r1, g1, b1) (r2, g2, b2)
          = fgCode r1 g1 b1 ++ String.singleton c ++ "\x1b[0m") := by
  refine ⟨fun sc ec => rfl, ?_, ?_⟩
  · intro s sc ec hs
    constructor
    · unfold StyledText.gradient
      rw [if_neg (by simpa using hs)]
    · simp
  · intro c r1 g1 b1 r2 g2 b2 h1 h2 h3
    have hdata : (String.singleton c).data = [c] := rfl
    unfold StyledText.gradient
    rw [hdata]
    simp only [List.isEmpty_cons, if_false, List.enum, List.enumFrom, List.map,
      List.length_cons, List.length_nil]
    rw [concatAll_cons, concatAll_nil, str_append_empty]
    unfold gradSeg
    simp only
    rw [gradChannel_single r1 r2 h1, gradChannel_single g1 g2 h2,
      gradChannel_single b1 b2 h3, if_neg Bool.false_ne_true]

/-- Witness for C3 at concrete inputs: a 2-character gradient has exactly 2
segments and one reset; a 1-character gradient uses the start color. -/
theorem c3_witness :
    (StyledText.gradient "ab" (1, 2, 3) (200, 100, 0)
        = concatAll (("ab" : String).data.enum.map
            (gradSeg (1, 2, 3) (200, 100, 0) ("ab" : String).data.length)) ++ "\x1b[0m")
    ∧ StyledText.gradient (String.singleton 'z') (7, 8, 9) (250, 11, 12)
        = fgCode 7 8 9 ++ String.singleton 'z' ++ "\x1b[0m" :=
  ⟨(c3_gradient_shape.2.1 "ab" (1, 2, 3) (200, 100, 0) (by decide)).1,
   c3_gradient_shape.2.2 'z' 7 8 9 250 11 12 (by decide) (by decide) (by decide)⟩

/-! ## The polychrome (rainbow) effect (`StyledText::polychrome`) -/

def rainbowColors : List (Nat × Nat × Nat) :=
  [(255, 0, 0), (255, 165, 0), (255, 255, 0), (0, 255, 0), (0, 0, 255), (75, 0, 130),
    (238, 130, 238)]

/-- `color_index.min(rainbow_colors.len() - 1)` for
`color_index = (i * rainbow_colors.len()) / len`. -/
def polyIndex (i L : Nat) : Nat :=
  min (i * rainbowColors.length / L) (rainbowColors.length - 1)

def polySeg (L : Nat) (p : Nat × Char) : String :=
  let c := rainbowColors.getD (polyIndex p.1 L) (0, 0, 0)
  fgCode c.1 c.2.1 c.2.2 ++ String.singleton p.2

def StyledText.polychrome (text : String) : String :=
  if text.data.isEmpty then ""
  else concatAll (text.data.enum.map (polySeg text.data.length)) ++ "\x1b[0m"

/-! ### C4: rainbow palette indexing is safe -/

/-- C4: `polychrome ""` short-circuits to the empty string before any
division; for nonempty text of `L` characters the output is one segment per
character followed by a single trailing reset, where character `i` selects
palette index `min (i * 7 / L) 6`, which is always below the palette length
7 (so `rainbow_colors[...]` is never indexed out of bounds). -/
theorem c4_polychrome_safe :
    StyledText.polychrome "" = ""
    ∧ (∀ i L : Nat, i < L → polyIndex i L < rainbowColors.length)
    ∧ (∀ s : String, s.data ≠ [] →
        StyledText.polychrome s
          = concatAll (s.data.enum.map (polySeg s.data.length)) ++ "\x1b[0m"
        ∧ (s.data.enum.map (polySeg s.data.length)).length = s.data.length) := by
  refine ⟨rfl, ?_, ?_⟩
  · intro i L hiL
    unfold polyIndex rainbowColors
    simp only [List.length_cons, List.length_nil]
    omega
  · intro s hs
    constructor
    · unfold StyledText.polychrome
      rw [if_neg (by simpa using hs)]
    · simp

/-- Witness for C4: `polychrome` on the 3-character text `"abc"` (palette
indices 0, 2, 4, all below 7). -/
theorem c4_witness :
    polyIndex 2 3 < rainbowColors.length
    ∧ StyledText.polychrome "abc"
        = concatAll (("abc" : String).data.enum.map (polySeg ("abc" : String).data.length))
          ++ "\x1b[0m" :=
  ⟨c4_polychrome_safe.2.1 2 3 (by decide),
   (c4_polychrome_safe.2.2 "abc" (by decide)).1⟩

/-! ### C6: the gradient channel formula, exact versus `f32`

The claim states each channel is `start + (end - start) * (i / max(L-1,1))`
"truncated (not rounded) to an integer in 0–255".  Read in exact (real)
arithmetic this is falsified by the `f32` rounding of the source at large
texts; the counterexample below exhibits a 64003-character text where the
`f32` pipeline yields channel 223 but the exact formula yields 222. -/

/-- The claim's channel formula in exact arithmetic: the interpolation
value is `(s * d + (e - s) * i) / d` for `d = max (L - 1) 1`, truncated
toward zero (for `i < L` the value is nonnegative, so integer division is
the truncation) and capped into `0–255`. -/
def exactChannel (s e i L : Nat) : Nat :=
  min ((Int.tdiv ((s : Int) * ((max (L - 1) 1 : Nat) : Int) + ((e : Int) - (s : Int)) * (i : Int))
    ((max (L - 1) 1 : Nat) : Int)).toNat) 255

def exactSeg (sc ec : Nat × Nat × Nat) (L : Nat) (p : Nat × Char) : String :=
  fgCode (exactChannel sc.1 ec.1 p.1 L) (exactChannel sc.2.1 ec.2.1 p.1 L)
      (exactChannel sc.2.2 ec.2.2 p.1 L)
    ++ String.singleton p.2

/-- The gradient output that claim C6 describes: per-character segments
with exact-arithmetic channels. -/
def gradientSpecExact (text : String) (sc ec : Nat × Nat × Nat) : String :=
  if text.data.isEmpty then ""
  else concatAll (text.data.enum.map (exactSeg sc ec text.data.length)) ++ "\x1b[0m"

theorem slen_append (a b : String) : (a ++ b).length = a.length + b.length := by
  show (a ++ b).data.length = a.data.length + b.data.length
  rw [sdata_append, List.length_append]

set_option maxRecDepth 100000 in
theorem repr_len_3 : ∀ n : Nat, n < 256 → 100 ≤ n → (Nat.repr n).length = 3 := by
  decide

theorem fgCode_len (a b c : Nat) :
    (fgCode a b c).length
      = 10 + (Nat.repr a).length + (Nat.repr b).length + (Nat.repr c).length := by
  unfold fgCode
  rw [slen_append, slen_append, slen_append, slen_append, slen_append, slen_append]
  have h1 : ("\x1b[38;2;" : String).length = 7 := rfl
  have h2 : (";" : String).length = 1 := rfl
  have h3 : ("m" : String).length = 1 := rfl
  simp only [h1, h2, h3]
  omega

/-- Strings joined from segment lists of equal pointwise lengths are equal
only when the segment lists are equal. -/
theorem concatAll_inj : ∀ (A B : List String), A.length = B.length →
    (∀ i : Nat, (A.getD i "").length = (B.getD i "").length) →
    concatAll A = concatAll B → A = B := by
  intro A
  induction A with
  | nil =>
    intro B hlen _ _
    cases B with
    | nil => rfl
    | cons b bs => simp at hlen
  | cons a as ih =>
    intro B hlen hpt hcat
    cases B with
    | nil => simp at hlen
    | cons b bs =>
      rw [concatAll_cons, concatAll_cons] at hcat
      have hlen0 : a.length = b.length := by
        have h0 := hpt 0
        simpa using h0
      have hdata : a.data ++ (concatAll as).data = b.data ++ (concatAll bs).data := by
        have hd := congrArg String.data hcat
        rw [sdata_append, sdata_append] at hd
        exact hd
      obtain ⟨h1, h2⟩ := List.append_inj hdata hlen0
      have ha : a = b := str_ext h1
      have hcs : concatAll as = concatAll bs := str_ext h2
      have htail : as = bs := by
        apply ih bs (by simpa using hlen) ?_ hcs
        intro i
        have hi := hpt (i + 1)
        simpa using hi
      rw [ha, htail]

set_option maxRecDepth 100000 in
theorem gradChannel_c6_lo (i : Nat) : 109 ≤ gradChannel 110 253 i 64003 := by
  unfold gradChannel
  apply toU8_ge _ 109 (by norm_num) (by norm_num)
  have hdiffnum : (0 : Int) ≤ (Fp.sub 24 (Fp.ofNat 24 253) (Fp.ofNat 24 110)).num := by
    decide
  have hDnum : (0 : Int)
      < (Fp.fmax (Fp.sub 24 (Fp.ofNat 24 64003) (Fp.ofNat 24 1)) (Fp.ofNat 24 1)).num := by
    decide
  have hinum : (0 : Int) ≤ (Fp.ofNat 24 i).num :=
    roundQ_num_nonneg 24 (i : Int) 1 (by positivity)
  have hrationum : (0 : Int) ≤ (Fp.div 24 (Fp.ofNat 24 i)
      (Fp.fmax (Fp.sub 24 (Fp.ofNat 24 64003) (Fp.ofNat 24 1)) (Fp.ofNat 24 1))).num :=
    fp_div_num_nonneg 24 _ _ hinum hDnum
  have hprodnum : (0 : Int) ≤ (Fp.mul 24 (Fp.sub 24 (Fp.ofNat 24 253) (Fp.ofNat 24 110))
      (Fp.div 24 (Fp.ofNat 24 i)
        (Fp.fmax (Fp.sub 24 (Fp.ofNat 24 64003) (Fp.ofNat 24 1)) (Fp.ofNat 24 1)))).num :=
    fp_mul_num_nonneg 24 _ _ hdiffnum hrationum
  have hprodval := fp_val_nonneg _ hprodnum
  have hof : (Fp.ofNat 24 110).val = 110 :=
    fp_ofNat_val 24 110 (by norm_num) (by norm_num) (by norm_num)
  have hsum0 : 0 ≤ (Fp.ofNat 24 110).val
      + (Fp.mul 24 (Fp.sub 24 (Fp.ofNat 24 253) (Fp.ofNat 24 110))
        (Fp.div 24 (Fp.ofNat 24 i)
          (Fp.fmax (Fp.sub 24 (Fp.ofNat 24 64003) (Fp.ofNat 24 1)) (Fp.ofNat 24 1)))).val := by
    rw [hof]
    linarith
  have hlow := (fp_add_val_bounds 24 _ _ (by norm_num) hsum0).1
  rw [hof] at hlow
  have hεv : (2 : ℚ) ^ (-(24 : Int)) = ((2 : ℚ) ^ (24 : ℕ))⁻¹ := by
    rw [zpow_neg]
    congr 1
    rw [← zpow_natCast]
    norm_num
  have hεb : ((2 : ℚ) ^ (24 : ℕ))⁻¹ = 1 / 16777216 := by norm_num
  have h109 : (109 : ℚ)
      ≤ (110 + (Fp.mul 24 (Fp.sub 24 (Fp.ofNat 24 253) (Fp.ofNat 24 110))
          (Fp.div 24 (Fp.ofNat 24 i)
            (Fp.fmax (Fp.sub 24 (Fp.ofNat 24 64003) (Fp.ofNat 24 1)) (Fp.ofNat 24 1)))).val)
        * (1 - (2 : ℚ) ^ (-(24 : Int))) := by
    rw [hεv, hεb]
    nlinarith [hprodval]
  push_cast
  exact le_trans h109 hlow

theorem exactChannel_c6_lo (i : Nat) : 110 ≤ exactChannel 110 253 i 64003 := by
  unfold exactChannel
  have hd : (max (64003 - 1) 1 : Nat) = 64002 := by norm_num
  rw [hd]
  apply le_min ?_ (by norm_num)
  have hcast : ((110 : ℕ) : Int) * ((64002 : ℕ) : Int)
      + (((253 : ℕ) : Int) - ((110 : ℕ) : Int)) * (i : Int)
      = ((7040220 + 143 * i : ℕ) : Int) := by
    push_cast
    ring
  rw [hcast]
  rw [← Int.ofNat_tdiv, Int.toNat_natCast]
  rw [Nat.le_div_iff_mul_le (by norm_num)]
  omega

set_option maxRecDepth 100000 in
/-- C6 counterexample: on the 64003-character text `replicate 64003 'a'`
with start color `(110,110,110)` and end color `(253,253,253)`, the
character at index 50575 is emitted with `f32`-computed channel 223 while
the claim's exact formula gives 222 (`143 * 50575 / 64002` lands within
half an `f32` ulp below the integer 113, and the rounded product crosses
it), so the rendered string differs from the claim's description. -/
theorem c6_counterexample :
    StyledText.gradient (String.mk (List.replicate 64003 'a')) (110, 110, 110)
        (253, 253, 253)
      ≠ gradientSpecExact (String.mk (List.replicate 64003 'a')) (110, 110, 110)
        (253, 253, 253) := by
  intro hcon
  have hne : (List.replicate 64003 'a').isEmpty = false := rfl
  unfold StyledText.gradient gradientSpecExact at hcon
  simp only [List.length_replicate, hne, Bool.false_eq_true, if_false] at hcon
  have hjoin : concatAll ((List.replicate 64003 'a').enum.map
        (gradSeg (110, 110, 110) (253, 253, 253) 64003))
      = concatAll ((List.replicate 64003 'a').enum.map
        (exactSeg (110, 110, 110) (253, 253, 253) 64003)) := by
    have hd := congrArg String.data hcon
    rw [sdata_append, sdata_append] at hd
    exact str_ext (List.append_cancel_right hd)
  have heq := concatAll_inj _ _ (by rw [List.length_map, List.length_map]) ?_ hjoin
  · have hget := congrArg (fun l => l.getD 50575 "") heq
    simp only [List.getD_eq_getElem?_getD, List.enum_eq_enumFrom, List.getElem?_map,
      List.getElem?_enumFrom, List.getElem?_replicate_of_lt (by norm_num : 50575 < 64003),
      Option.map_some', Option.getD_some, Nat.zero_add] at hget
    exact absurd hget (by decide)
  · intro i
    by_cases hi : i < 64003
    · simp only [List.getD_eq_getElem?_getD, List.enum_eq_enumFrom, List.getElem?_map,
        List.getElem?_enumFrom, List.getElem?_replicate_of_lt hi,
        Option.map_some', Option.getD_some, Nat.zero_add]
      have hf32lo := gradChannel_c6_lo i
      have hf32hi : gradChannel 110 253 i 64003 ≤ 255 := toU8_le_255 _
      have hexlo := exactChannel_c6_lo i
      have hexhi : exactChannel 110 253 i 64003 ≤ 255 := min_le_right _ _
      unfold gradSeg exactSeg
      simp only
      rw [slen_append, slen_append, fgCode_len, fgCode_len]
      rw [repr_len_3 (gradChannel 110 253 i 64003) (by omega) (by omega)]
      rw [repr_len_3 (exactChannel 110 253 i 64003) (by omega) (by omega)]
    · have hnone : (List.replicate 64003 'a')[i]? = Option.none := by
        rw [List.getElem?_replicate]
        rw [if_neg hi]
      simp only [List.getD_eq_getElem?_getD, List.enum_eq_enumFrom, List.getElem?_map,
        List.getElem?_enumFrom, hnone, Option.map_none', Option.getD_none]

/-- C6 (amended): in `gradient`, the character at 0-based index `i` of a
text of `L` characters is emitted as `ESC[38;2;R;G;Bm` followed by the
character, where each channel is `start + (end - start) * (i / max(L-1,1))`
computed in `f32` arithmetic (nearest-even rounding at every step, as the
source does) and truncated by the saturating `as u8` cast into `0–255`;
one trailing reset ends the nonempty output. -/
theorem c6_gradient_f32_channels :
    (∀ (s : String) (sc ec : Nat × Nat × Nat) (i : Nat) (c : Char),
      s.data[i]? = some c →
        (s.data.enum.map (gradSeg sc ec s.data.length))[i]?
          = some (fgCode (gradChannel sc.1 ec.1 i s.data.length)
              (gradChannel sc.2.1 ec.2.1 i s.data.length)
              (gradChannel sc.2.2 ec.2.2 i s.data.length) ++ String.singleton c))
    ∧ (∀ s e i L : Nat, gradChannel s e i L ≤ 255)
    ∧ (∀ (s : String) (sc ec : Nat × Nat × Nat), s.data ≠ [] →
        StyledText.gradient s sc ec
          = concatAll (s.data.enum.map (gradSeg sc ec s.data.length)) ++ "\x1b[0m") := by
  refine ⟨?_, fun s e i L => toU8_le_255 _, ?_⟩
  · intro s sc ec i c h
    rw [List.enum_eq_enumFrom]
    simp [List.getElem?_map, List.getElem?_enumFrom, h, gradSeg]
  · intro s sc ec hs
    unfold StyledText.gradient
    rw [if_neg (by simpa using hs)]

/-- Witness for C6's per-character clause at a concrete text and index. -/
theorem c6_witness :
    (("ab" : String).data.enum.map
        (gradSeg (1, 2, 3) (200, 100, 0) ("ab" : String).data.length))[1]?
      = some (fgCode (gradChannel 1 200 1 ("ab" : String).data.length)
          (gradChannel 2 100 1 ("ab" : String).data.length)
          (gradChannel 3 0 1 ("ab" : String).data.length) ++ String.singleton 'b') :=
  c6_gradient_f32_channels.1 "ab" (1, 2, 3) (200, 100, 0) 1 'b' (by decide)

/-! ## `f64` with special values, and the progress bar -/

inductive F64 where
  | finite (x : Fp)
  | inf (neg : Bool)
  | nan
  deriving DecidableEq

/-- `f64::clamp(0.0, 1.0)`: `if self < min { min } else if self > max
{ max } else { self }` — NaN propagates. -/
def F64.clamp01 : F64 → F64
  | F64.nan => F64.nan
  | F64.inf b => if b then F64.finite ⟨0, 0⟩ else F64.finite ⟨1, 0⟩
  | F64.finite x =>
    if Fp.blt x ⟨0, 0⟩ then F64.finite ⟨0, 0⟩
    else if Fp.blt ⟨1, 0⟩ x then F64.finite ⟨1, 0⟩
    else F64.finite x

/-- `self.width as f64 * progress`: the width conversion rounds to `f64`;
a product with NaN is NaN.  (Finite operands in this program's range never
overflow to infinity.) -/
def F64.mulNat (w : Nat) (p : F64) : F64 :=
  match p with
  | F64.nan => F64.nan
  | F64.inf b => if w = 0 then F64.nan else F64.inf b
  | F64.finite x => F64.finite (Fp.mul 53 (Fp.ofNat 53 w) x)

/-- The saturating `as usize` cast on `f64` (NaN casts to 0). -/
def F64.toUsize : F64 → Nat
  | F64.nan => 0
  | F64.inf b => if b then 0 else 2 ^ 64 - 1
  | F64.finite x => Fp.toUsize x

structure ProgressBar where
  width : Nat
  filled_char : Char
  empty_char : Char
  color : Option (Nat × Nat × Nat)
  deriving DecidableEq

def ProgressBar.new (width : Nat) : ProgressBar := ⟨width, '█', '░', Option.none⟩

def ProgressBar.chars (bar : ProgressBar) (fc ec : Char) : ProgressBar :=
  { bar with filled_char := fc, empty_char := ec }

/-- `ProgressBar::color` (named `setColor` here because `color` is the
field projection). -/
def ProgressBar.setColor (bar : ProgressBar) (r g b : Nat) : ProgressBar :=
  { bar with color := some (r, g, b) }

/-- `filled_width = (self.width as f64 * progress.clamp(0.0, 1.0)) as usize`. -/
def filledWidth (w : Nat) (progress : F64) : Nat :=
  (F64.mulNat w progress.clamp01).toUsize

/-- The optional foreground color wrap around the bar body. -/
def colorWrap (c : Option (Nat × Nat × Nat)) (s : String) : String :=
  match c with
  | some (r, g, b) => fgCode r g b ++ s ++ "\x1b[0m"
  | Option.none => s

/-- `ProgressBar::render`: clamp the progress, compute `filled_width`,
then `empty_width = self.width - filled_width` — a `usize` subtraction
that panics (modelled as `none`) when `filled_width` exceeds the width —
and emit the filled run followed by the empty run, optionally wrapped in
one color escape pair. -/
def ProgressBar.render (bar : ProgressBar) (progress : F64) : Option String :=
  if bar.width < filledWidth bar.width progress then Option.none
  else
    some (colorWrap bar.color
      (String.mk (List.replicate (filledWidth bar.width progress) bar.filled_char
        ++ List.replicate (bar.width - filledWidth bar.width progress) bar.empty_char)))

/-! ### C9 / C10: clamping and the `width - filled` subtraction -/

theorem clamp01_cases (p : F64) :
    p.clamp01 = F64.nan
      ∨ ∃ x : Fp, p.clamp01 = F64.finite x ∧ 0 ≤ x.val ∧ x.val ≤ 1 := by
  cases p with
  | nan => exact Or.inl rfl
  | inf b =>
    right
    cases b with
    | true => exact ⟨⟨0, 0⟩, rfl, by norm_num [Fp.val], by norm_num [Fp.val]⟩
    | false => exact ⟨⟨1, 0⟩, rfl, by norm_num [Fp.val], by norm_num [Fp.val]⟩
  | finite x =>
    right
    by_cases h1 : Fp.blt x ⟨0, 0⟩ = true
    · refine ⟨⟨0, 0⟩, ?_, by norm_num [Fp.val], by norm_num [Fp.val]⟩
      simp only [F64.clamp01]
      rw [if_pos h1]
    · by_cases h2 : Fp.blt ⟨1, 0⟩ x = true
      · refine ⟨⟨1, 0⟩, ?_, by norm_num [Fp.val], by norm_num [Fp.val]⟩
        simp only [F64.clamp01]
        rw [if_neg h1, if_pos h2]
      · refine ⟨x, ?_, ?_, ?_⟩
        · simp only [F64.clamp01]
          rw [if_neg h1, if_neg h2]
        · have := fp_blt_iff x ⟨0, 0⟩
          have hval0 : (Fp.val ⟨0, 0⟩) = 0 := by norm_num [Fp.val]
          rw [hval0] at this
          by_contra hcon
          push_neg at hcon
          exact h1 (this.mpr hcon)
        · have := fp_blt_iff ⟨1, 0⟩ x
          have hval1 : (Fp.val ⟨1, 0⟩) = 1 := by norm_num [Fp.val]
          rw [hval1] at this
          by_contra hcon
          push_neg at hcon
          exact h2 (this.mpr hcon)

theorem fp_ofNat_val_any (w : Nat) (hw : w < 2 ^ 53) : (Fp.ofNat 53 w).val = w := by
  by_cases hw0 : w = 0
  · subst hw0
    norm_num [fp_ofNat_zero, Fp.val]
  · exact fp_ofNat_val 53 w (by norm_num) (by omega) hw

theorem filledWidth_le (w : Nat) (p : F64) (hw : w < 2 ^ 53) : filledWidth w p ≤ w := by
  unfold filledWidth
  rcases clamp01_cases p with hnan | ⟨x, hx, hx0, hx1⟩
  · rw [hnan]
    exact Nat.zero_le w
  · rw [hx]
    show Fp.toUsize (Fp.mul 53 (Fp.ofNat 53 w) x) ≤ w
    apply toUsize_le
    have hofval : (Fp.ofNat 53 w).val = w := fp_ofNat_val_any w hw
    have hprod0 : 0 ≤ (Fp.ofNat 53 w).val * x.val := by
      rw [hofval]
      have : (0 : ℚ) ≤ (w : ℚ) := by positivity
      exact mul_nonneg this hx0
    have hub := (fp_mul_val_bounds 53 (Fp.ofNat 53 w) x (by norm_num) hprod0).2
    rw [hofval] at hub
    have heps : (0 : ℚ) < (2 : ℚ) ^ (-(53 : Int)) := two_zpow_pos _
    have hepsv : (2 : ℚ) ^ (-(53 : Int)) = ((2 : ℚ) ^ (53 : ℕ))⁻¹ := by
      rw [zpow_neg]
      congr 1
      rw [← zpow_natCast]
      norm_num
    have hwq : (w : ℚ) < (2 : ℚ) ^ (53 : ℕ) := by
      have : ((2 ^ 53 : ℕ) : ℚ) = (2 : ℚ) ^ (53 : ℕ) := by push_cast; ring
      rw [← this]
      exact_mod_cast hw
    have hwe : (w : ℚ) * (2 : ℚ) ^ (-(53 : Int)) < 1 := by
      rw [hepsv]
      rw [mul_inv_lt_iff₀ (by positivity)]
      linarith
    have hw0 : (0 : ℚ) ≤ (w : ℚ) := by positivity
    calc (Fp.mul 53 (Fp.ofNat 53 w) x).val
        ≤ (w : ℚ) * x.val * (1 + (2 : ℚ) ^ (-(53 : Int))) := hub
      _ ≤ (w : ℚ) * 1 * (1 + (2 : ℚ) ^ (-(53 : Int))) := by
          have hfac : (0 : ℚ) ≤ (w : ℚ) * (1 - x.val) * (1 + (2 : ℚ) ^ (-(53 : Int))) :=
            mul_nonneg (mul_nonneg hw0 (by linarith)) (by linarith)
          nlinarith [hfac]
      _ = (w : ℚ) + (w : ℚ) * (2 : ℚ) ^ (-(53 : Int)) := by ring
      _ < (w : ℚ) + 1 := by linarith

set_option maxRecDepth 100000 in
/-- C10 counterexample: at width `2 ^ 53 + 3` (which rounds UP to
`2 ^ 53 + 4` when converted to `f64`) and progress `1.0`, the computed
`filled_width` exceeds the width, so `width - filled_width` underflows and
the render panics. -/
theorem c10_counterexample :
    (ProgressBar.new (2 ^ 53 + 3)).render (F64.finite ⟨1, 0⟩) = Option.none := by
  decide

/-- C10 (amended): for every bar of width below `2 ^ 53` and EVERY progress
value — finite of any magnitude, infinite, or NaN — rendering does not
panic: clamping keeps the computed fill count at most `width`, the
subtraction cannot underflow, and the bar is the fill run followed by the
empty run, totalling exactly `width` glyphs. -/
theorem c10_render_total :
    ∀ (bar : ProgressBar) (p : F64), bar.width < 2 ^ 53 →
      ∃ fw : Nat, fw ≤ bar.width
        ∧ bar.render p = some (colorWrap bar.color
            (String.mk (List.replicate fw bar.filled_char
              ++ List.replicate (bar.width - fw) bar.empty_char)))
        ∧ fw + (bar.width - fw) = bar.width := by
  intro bar p hw
  have hle := filledWidth_le bar.width p hw
  refine ⟨filledWidth bar.width p, hle, ?_, by omega⟩
  unfold ProgressBar.render
  rw [if_neg (by omega)]

/-- Witness for C10 at a concrete bar and progress. -/
theorem c10_witness :
    ∃ fw : Nat, fw ≤ (ProgressBar.new 10).width
      ∧ (ProgressBar.new 10).render (F64.finite ⟨1, -1⟩)
          = some (colorWrap (ProgressBar.new 10).color
              (String.mk (List.replicate fw (ProgressBar.new 10).filled_char
                ++ List.replicate ((ProgressBar.new 10).width - fw)
                    (ProgressBar.new 10).empty_char)))
      ∧ fw + ((ProgressBar.new 10).width - fw) = (ProgressBar.new 10).width :=
  c10_render_total (ProgressBar.new 10) (F64.finite ⟨1, -1⟩) (by norm_num [ProgressBar.new])

set_option maxRecDepth 100000 in
/-- C9 counterexample: the claim describes `render` as always emitting
`filled` fill glyphs and `width - filled` empty glyphs, but at width
`2 ^ 53 + 7` (which rounds up to `2 ^ 53 + 8` in `f64`) and progress `1.0`
the subtraction underflows and the render panics, emitting nothing. -/
theorem c9_counterexample :
    (ProgressBar.new (2 ^ 53 + 7)).render (F64.finite ⟨1, 0⟩) = Option.none := by
  decide

set_option maxRecDepth 100000 in
/-- C9 (amended): for widths below `2 ^ 53`, `render` clamps its progress
to `[0, 1]`, computes `filled = (width as f64 * clamped) as usize` (the
truncated `f64` product) and `empty = width - filled`, and emits the fill
run followed by the empty run, wrapped in a single color escape pair only
when a color is set; `ProgressBar::new(10)` rendered at `-0.5` has zero
fill glyphs, at `1.5` zero empty glyphs, and at `0.5` exactly 5 of each. -/
theorem c9_render_shape :
    (∀ (bar : ProgressBar) (p : F64), bar.width < 2 ^ 53 →
      bar.render p = some (colorWrap bar.color
        (String.mk (List.replicate (filledWidth bar.width p) bar.filled_char
          ++ List.replicate (bar.width - filledWidth bar.width p) bar.empty_char))))
    ∧ (ProgressBar.new 10).render (F64.finite ⟨-1, -1⟩)
        = some (String.mk (List.replicate 10 '░'))
    ∧ (ProgressBar.new 10).render (F64.finite ⟨3, -1⟩)
        = some (String.mk (List.replicate 10 '█'))
    ∧ (ProgressBar.new 10).render (F64.finite ⟨1, -1⟩)
        = some (String.mk (List.replicate 5 '█' ++ List.replicate 5 '░'))
    ∧ (String.mk (List.replicate 10 '░')).data.count '█' = 0
    ∧ (String.mk (List.replicate 10 '█')).data.count '░' = 0
    ∧ (String.mk (List.replicate 5 '█' ++ List.replicate 5 '░')).data.count '█' = 5
    ∧ (String.mk (List.replicate 5 '█' ++ List.replicate 5 '░')).data.count '░' = 5 := by
  refine ⟨?_, by decide, by decide, by decide, by decide, by decide, by decide, by decide⟩
  intro bar p hw
  have hle := filledWidth_le bar.width p hw
  unfold ProgressBar.render
  rw [if_neg (by omega)]

/-- Witness for C9's general clause at a concrete bar and progress. -/
theorem c9_witness :
    (ProgressBar.new 4).render (F64.finite ⟨1, -2⟩)
      = some (colorWrap (ProgressBar.new 4).color
          (String.mk (List.replicate (filledWidth (ProgressBar.new 4).width
              (F64.finite ⟨1, -2⟩)) (ProgressBar.new 4).filled_char
            ++ List.replicate ((ProgressBar.new 4).width
                - filledWidth (ProgressBar.new 4).width (F64.finite ⟨1, -2⟩))
              (ProgressBar.new 4).empty_char))) :=
  c9_render_shape.1 (ProgressBar.new 4) (F64.finite ⟨1, -2⟩) (by norm_num [ProgressBar.new])

end Polychrome
